import Mathlib

namespace IIG

/-!
Verification development for the inline-image-generation extension
(`src/index.js` and the unnamed duplicate module `src/unnamed/part_000`).

The JavaScript sources are shallowly embedded over `List Char`:
JS strings become `List Char`, `String.prototype.indexOf(sub, from)` becomes
`idxFrom`, `lastIndexOf(sub, upTo)` becomes `lastIdxLe`, `substring` becomes
`extractRange`, `includes` becomes `jsIncludes`, and the hand-rolled
balanced-brace loop of `parseImageTags` becomes `braceRunAux`.
Asynchronous collaborators (the HEAD existence probe, the generation API,
the chat store and the rendered DOM) are modelled as explicit oracles and
state records, so every embedded function is an executable total function.
-/

/-- Character lists standing for JavaScript strings. -/

abbrev Chars := List Char

/-- `OccAt t P p`: the pattern `P` occurs in `t` starting at index `p`. -/

def OccAt (t P : Chars) (p : Nat) : Prop := P <+: t.drop p

instance (t P : Chars) (p : Nat) : Decidable (OccAt t P p) :=
  inferInstanceAs (Decidable (P <+: t.drop p))

/-- Auxiliary scan for `idxFrom`: `rem` is `t.drop i`. -/

def idxFromAux (P : Chars) : Chars → Nat → Option Nat
  | [], i => if P.isEmpty then some i else none
  | c :: cs, i => if P.isPrefixOf (c :: cs) then some i else idxFromAux P cs (i + 1)

/-- JS `t.indexOf(P, start)` (as `Option Nat` instead of `-1`). -/

def idxFrom (t P : Chars) (start : Nat) : Option Nat :=
  idxFromAux P (t.drop start) start

/-- Auxiliary backwards search for `lastIdxLe`. -/

def lastIdxLeAux (t P : Chars) : Nat → Option Nat
  | 0 => if OccAt t P 0 then some 0 else none
  | k + 1 => if OccAt t P (k + 1) then some (k + 1) else lastIdxLeAux t P k

/-- JS `t.lastIndexOf(P, upTo)` (as `Option Nat` instead of `-1`): the largest
occurrence position that is `≤ upTo`. -/

def lastIdxLe (t P : Chars) (upTo : Nat) : Option Nat := lastIdxLeAux t P upTo

/-- JS `text.substring(i, j)` for `i ≤ j` (the only way the scanner uses it). -/

def extractRange (t : Chars) (i j : Nat) : Chars := (t.drop i).take (j - i)

/-- JS `haystack.includes(needle)`. -/

def jsIncludes (t P : Chars) : Bool := (idxFrom t P 0).isSome

/-- JS `String.prototype.replace` with a global pattern: replace every
(left-to-right, non-overlapping) occurrence of `pat` by `rep`.
The fuel argument is the length of the remaining text. -/

def replaceSubAux (pat rep : Chars) : Nat → Chars → Chars
  | 0, t => t
  | _ + 1, [] => []
  | f + 1, c :: cs =>
    if pat.isPrefixOf (c :: cs) ∧ pat ≠ [] then
      rep ++ replaceSubAux pat rep f (cs.drop (pat.length - 1))
    else
      c :: replaceSubAux pat rep f cs

def replaceSub (t pat rep : Chars) : Chars := replaceSubAux pat rep t.length t

/-- JS `String.prototype.replace` with a plain-string pattern: replace only
the first occurrence. -/

def replaceFirst : Chars → Chars → Chars → Chars
  | [], _, _ => []
  | c :: cs, pat, rep =>
    if pat.isPrefixOf (c :: cs) then rep ++ (c :: cs).drop pat.length
    else c :: replaceFirst cs pat rep

/-- HTML-entity normalisation applied to markup-family instruction JSON
before `JSON.parse` (the exact `.replace` chain of `parseImageTags`). -/

def entityNorm (s : Chars) : Chars :=
  let s1 := replaceSub s ("&quot;".data) ('"' :: [])
  let s2 := replaceSub s1 ("&apos;".data) ('\'' :: [])
  let s3 := replaceSub s2 ("&#39;".data) ('\'' :: [])
  let s4 := replaceSub s3 ("&#34;".data) ('"' :: [])
  replaceSub s4 ("&amp;".data) ('&' :: [])

/-- Legacy-family JSON normalisation: `jsonStr.replace(/'/g, '"')`. -/

def legacyNorm (s : Chars) : Chars :=
  s.map (fun c => if c = '\'' then '"' else c)

/-- One-character outcome of the balanced-brace loop body of
`parseImageTags`: either the loop `break`s (depth returned to zero) or it
continues with updated `braceCount` / `inString` / `escapeNext` state. -/

inductive BStep where
  | stop
  | go (depth : Int) (inStr esc : Bool)
deriving DecidableEq

/-- The loop body of the balanced-brace scan, verbatim from the source:
escape consumption first, then backslash-in-string, then quote toggling,
then brace counting outside strings. -/

def braceStepF (c : Char) (depth : Int) (inStr esc : Bool) : BStep :=
  if esc then .go depth inStr false
  else if c = '\\' ∧ inStr then .go depth inStr true
  else if c = '"' then .go depth (!inStr) esc
  else if !inStr then
    if c = '{' then .go (depth + 1) inStr esc
    else if c = '}' then
      if depth - 1 = 0 then .stop else .go (depth - 1) inStr esc
    else .go depth inStr esc
  else .go depth inStr esc

/-- The balanced-brace scan of `parseImageTags` (both families use the same
loop): `rem` is `text.drop i` and the scan starts with `braceCount = 0`,
`inString = false`, `escapeNext = false` at `i = jsonStart`. Returns
`jsonEnd` (one past the brace closing the depth-0 level) or `none` when the
text ends first (JS `jsonEnd === -1`). -/

def braceRunAux : Chars → Nat → Int → Bool → Bool → Option Nat
  | [], _, _, _, _ => none
  | c :: cs, i, depth, inStr, esc =>
    match braceStepF c depth inStr esc with
    | .stop => some (i + 1)
    | .go d2 s2 e2 => braceRunAux cs (i + 1) d2 s2 e2

/-- JSON values as produced by `JSON.parse`. Numbers keep their raw token
(no field of the parsed instruction is used numerically). -/

inductive Json where
  | null : Json
  | bool (b : Bool) : Json
  | num (raw : Chars) : Json
  | str (s : Chars) : Json
  | arr (elems : List Json) : Json
  | obj (fields : List (Chars × Json)) : Json

instance : Inhabited Json := ⟨Json.null⟩

/-- JSON insignificant whitespace. -/

def jsonWs (c : Char) : Bool := c = ' ' ∨ c = '\t' ∨ c = '\n' ∨ c = '\r'

def skipWs (s : Chars) : Chars := s.dropWhile jsonWs

def hexVal (c : Char) : Option Nat :=
  if '0' ≤ c ∧ c ≤ '9' then some (c.toNat - '0'.toNat)
  else if 'a' ≤ c ∧ c ≤ 'f' then some (c.toNat - 'a'.toNat + 10)
  else if 'A' ≤ c ∧ c ≤ 'F' then some (c.toNat - 'A'.toNat + 10)
  else none

/-- JSON string body after the opening quote: contents plus the remainder
after the closing quote. Control characters must be escaped; `\\uXXXX`
produces the corresponding code point (surrogate pairing not modelled). -/

def parseStrBody : Chars → Option (Chars × Chars)
  | [] => none
  | '"' :: rest => some ([], rest)
  | '\\' :: e :: rest =>
    if e = '"' then (parseStrBody rest).map (fun kv => ('"' :: kv.1, kv.2))
    else if e = '\\' then (parseStrBody rest).map (fun kv => ('\\' :: kv.1, kv.2))
    else if e = '/' then (parseStrBody rest).map (fun kv => ('/' :: kv.1, kv.2))
    else if e = 'b' then (parseStrBody rest).map (fun kv => ('\x08' :: kv.1, kv.2))
    else if e = 'f' then (parseStrBody rest).map (fun kv => ('\x0c' :: kv.1, kv.2))
    else if e = 'n' then (parseStrBody rest).map (fun kv => ('\n' :: kv.1, kv.2))
    else if e = 'r' then (parseStrBody rest).map (fun kv => ('\r' :: kv.1, kv.2))
    else if e = 't' then (parseStrBody rest).map (fun kv => ('\t' :: kv.1, kv.2))
    else if e = 'u' then
      match rest with
      | h1 :: h2 :: h3 :: h4 :: rest2 =>
        match hexVal h1, hexVal h2, hexVal h3, hexVal h4 with
        | some v1, some v2, some v3, some v4 =>
          (parseStrBody rest2).map
            (fun kv => (Char.ofNat (((v1 * 16 + v2) * 16 + v3) * 16 + v4) :: kv.1, kv.2))
        | _, _, _, _ => none
      | _ => none
    else none
  | c :: rest =>
    if c.toNat < 32 then none
    else (parseStrBody rest).map (fun kv => (c :: kv.1, kv.2))

/-- Exponent part of a JSON number token. -/

def parseNumExp (acc : Chars) (s : Chars) : Option (Chars × Chars) :=
  match s with
  | c :: r =>
    if c = 'e' ∨ c = 'E' then
      let sign : Chars × Chars :=
        match r with
        | '+' :: rr => (['+'], rr)
        | '-' :: rr => (['-'], rr)
        | _ => ([], r)
      let ds := sign.2.takeWhile Char.isDigit
      if ds.isEmpty then none
      else some (acc ++ c :: (sign.1 ++ ds), sign.2.dropWhile Char.isDigit)
    else some (acc, s)
  | [] => some (acc, [])

/-- Fraction and exponent parts of a JSON number token. -/

def parseNumFrac (acc : Chars) (s : Chars) : Option (Chars × Chars) :=
  match s with
  | '.' :: r =>
    let ds := r.takeWhile Char.isDigit
    if ds.isEmpty then none
    else parseNumExp (acc ++ '.' :: ds) (r.dropWhile Char.isDigit)
  | _ => parseNumExp acc s

/-- A JSON number token (strict grammar: optional minus, no leading zeros). -/

def parseNumTok (s : Chars) : Option (Chars × Chars) :=
  let sign : Chars × Chars :=
    match s with
    | '-' :: r => (['-'], r)
    | _ => ([], s)
  match sign.2 with
  | '0' :: r => parseNumFrac (sign.1 ++ ['0']) r
  | c :: _ =>
    if c.isDigit then
      parseNumFrac (sign.1 ++ sign.2.takeWhile Char.isDigit)
        (sign.2.dropWhile Char.isDigit)
    else none
  | [] => none

/-- Recursion modes of the JSON value parser: a value, an object body, or an
array body (`first` tells whether a closing bracket may come immediately). -/

inductive PMode where
  | val
  | objBody (first : Bool) (acc : List (Chars × Json))
  | arrBody (first : Bool) (acc : List Json)

/-- Fuel-indexed recursive-descent JSON parser modelling `JSON.parse`. -/

def parseStep : Nat → PMode → Chars → Option (Json × Chars)
  | 0, _, _ => none
  | f + 1, .val, s =>
    match skipWs s with
    | [] => none
    | '"' :: r => (parseStrBody r).map (fun kv => (Json.str kv.1, kv.2))
    | '{' :: r => parseStep f (.objBody true []) r
    | '[' :: r => parseStep f (.arrBody true []) r
    | 't' :: 'r' :: 'u' :: 'e' :: r => some (Json.bool true, r)
    | 'f' :: 'a' :: 'l' :: 's' :: 'e' :: r => some (Json.bool false, r)
    | 'n' :: 'u' :: 'l' :: 'l' :: r => some (Json.null, r)
    | s1 => (parseNumTok s1).map (fun kv => (Json.num kv.1, kv.2))
  | f + 1, .objBody first acc, s =>
    match skipWs s with
    | '}' :: r => if first then some (Json.obj acc.reverse, r) else none
    | '"' :: r =>
      match parseStrBody r with
      | none => none
      | some (key, r1) =>
        match skipWs r1 with
        | ':' :: r2 =>
          match parseStep f .val r2 with
          | none => none
          | some (v, r3) =>
            match skipWs r3 with
            | ',' :: r4 => parseStep f (.objBody false ((key, v) :: acc)) r4
            | '}' :: r4 => some (Json.obj ((key, v) :: acc).reverse, r4)
            | _ => none
        | _ => none
    | _ => none
  | f + 1, .arrBody first acc, s =>
    match skipWs s with
    | ']' :: r => if first then some (Json.arr acc.reverse, r) else none
    | s1 =>
      match parseStep f .val s1 with
      | none => none
      | some (v, r1) =>
        match skipWs r1 with
        | ',' :: r2 => parseStep f (.arrBody false (v :: acc)) r2
        | ']' :: r2 => some (Json.arr ((v :: acc)).reverse, r2)
        | _ => none

/-- `JSON.parse`: a single value with only whitespace after it. -/

def jsonParse (s : Chars) : Option Json :=
  match parseStep (2 * s.length + 4) .val s with
  | some (v, rest) => if (skipWs rest).isEmpty then some v else none
  | none => none

/-- JS property access `data.key` on a parsed JSON value (`undefined`
becomes `none`; JS keeps the last of duplicate keys). -/

def jGet (j : Json) (key : Chars) : Option Json :=
  match j with
  | .obj fields => fields.foldl (fun acc kv => if kv.1 = key then some kv.2 else acc) none
  | _ => none

/-- Whether the decimal mantissa of a raw number token is zero. -/

def numIsZero (raw : Chars) : Bool :=
  (raw.takeWhile (fun c => c ≠ 'e' ∧ c ≠ 'E')).all (fun c => ¬ (c.isDigit ∧ c ≠ '0'))

/-- JS truthiness of a parsed JSON value. -/

def jsTruthy : Json → Bool
  | .null => false
  | .bool b => b
  | .num raw => !(numIsZero raw)
  | .str s => !s.isEmpty
  | .arr _ => true
  | .obj _ => true

/-- JS `a || b` where `a` is a property access (absent property = falsy). -/

def jsOr (a : Option Json) (b : Json) : Json :=
  match a with
  | some j => if jsTruthy j then j else b
  | none => b

/-- JS regex `\s` (ASCII part, the only part these inputs use). -/

def isWsJS (c : Char) : Bool :=
  c = ' ' ∨ c = '\t' ∨ c = '\n' ∨ c = '\r' ∨ c = '\x0b' ∨ c = '\x0c'

/-- Attempted match of `/src\s*=\s*["']?([^"'\s>]+)/i` anchored at the head
of `s`: case-insensitive `src`, optional whitespace, `=`, optional
whitespace, an optional quote, then one or more characters outside
`"`, `'`, whitespace and `>` (the capture group). -/

def srcValAt (s : Chars) : Option Chars :=
  match s with
  | c1 :: c2 :: c3 :: rest =>
    if c1.toLower = 's' ∧ c2.toLower = 'r' ∧ c3.toLower = 'c' then
      match rest.dropWhile isWsJS with
      | '=' :: r2 =>
        let r3 := r2.dropWhile isWsJS
        let r4 := match r3 with
          | '"' :: rr => rr
          | '\'' :: rr => rr
          | _ => r3
        let tk := r4.takeWhile (fun c => ¬ (c = '"' ∨ c = '\'' ∨ isWsJS c ∨ c = '>'))
        if tk.isEmpty then none else some tk
      | _ => none
    else none
  | _ => none

/-- First (leftmost) match of the `src` attribute pattern, as in
`fullImgTag.match(/src\s*=\s*["']?([^"'\s>]+)/i)`, returning the capture. -/

def findSrc : Chars → Option Chars
  | [] => none
  | c :: cs =>
    match srcValAt (c :: cs) with
    | some v => some v
    | none => findSrc cs

/-- A parsed instruction tag (the object literals pushed by
`parseImageTags`). `aspect`, `isize` and `quality` keep the JS value
resulting from `data.aspect_ratio || data.aspectRatio || null` etc. -/

structure IigTag where
  fullMatch : Chars
  index : Nat
  style : Json
  prompt : Json
  aspect : Json
  isize : Json
  quality : Json
  isNewFormat : Bool
  existingSrc : Option Chars

instance : Inhabited IigTag :=
  ⟨⟨[], 0, Json.null, Json.null, Json.null, Json.null, Json.null, false, none⟩⟩

/-- Options of `parseImageTags`. -/

structure ScanOpts where
  checkExistence : Bool := false
  forceAll : Bool := false

/-- Outcome of the HEAD existence probe `fetch(path, { method: 'HEAD' })`:
either a response with its `ok` flag, or a thrown network error. -/

inductive Probe where
  | ok (okFlag : Bool)
  | threw

instance : Inhabited Probe := ⟨Probe.threw⟩

/-- `checkFileExists`: `response.ok`, and `false` when the fetch throws. -/

def checkFileExists (probe : Chars → Probe) (path : Chars) : Bool :=
  match probe path with
  | .ok b => b
  | .threw => false

/-- Result of a scanner run: the tag array plus the list of paths given to
the existence probe (the scan's only I/O, recorded for the purity claims). -/

structure ScanOut where
  tags : List IigTag
  probes : List Chars

/-- Outcome of one iteration of a scanning `while` loop: either the loop
exits (`indexOf` returned `-1`) or it continues from `pos`, having probed
the listed paths and pushed at most one tag. -/

inductive IterOut where
  | done
  | next (probes : List Chars) (tag : Option IigTag) (pos : Nat)

/-- The markup pattern constants of `parseImageTags`. -/

def mAnchor : Chars := "data-iig-instruction=".data

def imgOpen : Chars := "<img".data

def lAnchor : Chars := "[IMG:GEN:".data

/-- Field extraction shared by both tag families:
`data.style || ''`, `data.prompt || ''`,
`data.aspect_ratio || data.aspectRatio || null`,
`data.image_size || data.imageSize || null`, `data.quality || null`. -/

def tagFieldsOf (data : Json) : Json × Json × Json × Json × Json :=
  (jsOr (jGet data ("style".data)) (Json.str []),
   jsOr (jGet data ("prompt".data)) (Json.str []),
   jsOr (jGet data ("aspect_ratio".data)) (jsOr (jGet data ("aspectRatio".data)) Json.null),
   jsOr (jGet data ("image_size".data)) (jsOr (jGet data ("imageSize".data)) Json.null),
   jsOr (jGet data ("quality".data)) Json.null)

/-- Geometry of one markup-family candidate anchored at `markerPos`: the
element start (`lastIndexOf('<img')` within the 500-character lookback),
the JSON start (first `{` within 10 characters of the attribute), the
balanced JSON end, and the element end (one past the next `>`). `none`
rejects the candidate and the loop resumes at `markerPos + 1`. -/

def markupCandidate (t : Chars) (markerPos : Nat) : Option (Nat × Nat × Nat × Nat) :=
  match lastIdxLe t imgOpen markerPos with
  | none => none
  | some imgStart =>
    if markerPos - imgStart > 500 then none
    else
      match idxFrom t ['{'] (markerPos + mAnchor.length) with
      | none => none
      | some jsonStart =>
        if jsonStart > markerPos + mAnchor.length + 10 then none
        else
          match braceRunAux (t.drop jsonStart) jsonStart 0 false false with
          | none => none
          | some jsonEnd =>
            match idxFrom t ['>'] jsonEnd with
            | none => none
            | some gtPos => some (imgStart, jsonStart, jsonEnd, gtPos + 1)

/-- The tag-pushing tail of the markup loop body: entity-normalise the
instruction JSON, `JSON.parse` it, and push the tag object; a parse failure
is logged and dropped. Either way the loop resumes at `imgEnd`. -/

def markupPush (t : Chars) (imgStart jsonStart jsonEnd imgEnd : Nat)
    (hasPath : Bool) (srcValue : Chars) (probes : List Chars) : IterOut :=
  match jsonParse (entityNorm (extractRange t jsonStart jsonEnd)) with
  | some data =>
    let fs := tagFieldsOf data
    .next probes (some
      { fullMatch := extractRange t imgStart imgEnd
        index := imgStart
        style := fs.1
        prompt := fs.2.1
        aspect := fs.2.2.1
        isize := fs.2.2.2.1
        quality := fs.2.2.2.2
        isNewFormat := true
        existingSrc := if hasPath then some srcValue else none }) imgEnd
  | none => .next probes none imgEnd

/-- The needs-generation decision of the markup loop body (`src` attribute
extraction, sentinel/error/path classification, optional existence probe),
then `markupPush`. The loop always resumes at `imgEnd` afterwards. -/

def markupDecide (probe : Chars → Probe) (opts : ScanOpts) (t : Chars)
    (imgStart jsonStart jsonEnd imgEnd : Nat) : IterOut :=
  let fullImgTag := extractRange t imgStart imgEnd
  let srcValue := (findSrc fullImgTag).getD []
  let hasMarker :=
    jsIncludes srcValue ("[IMG:GEN]".data) || jsIncludes srcValue ("[IMG:".data)
  let hasErrorImage := jsIncludes srcValue ("error.svg".data)
  let hasPath :=
    !srcValue.isEmpty && (srcValue.headD ' ' = '/') && decide (srcValue.length > 5)
  if hasErrorImage && !opts.forceAll then .next [] none imgEnd
  else if opts.forceAll then
    markupPush t imgStart jsonStart jsonEnd imgEnd hasPath srcValue []
  else if hasMarker || srcValue.isEmpty then
    markupPush t imgStart jsonStart jsonEnd imgEnd hasPath srcValue []
  else if hasPath && opts.checkExistence then
    if checkFileExists probe srcValue then .next [srcValue] none imgEnd
    else markupPush t imgStart jsonStart jsonEnd imgEnd hasPath srcValue [srcValue]
  else .next [] none imgEnd

/-- One iteration of the markup-family (`<img data-iig-instruction=...>`)
scanning loop of `parseImageTags`, from `searchPos`. -/

def markupIter (probe : Chars → Probe) (opts : ScanOpts) (t : Chars)
    (searchPos : Nat) : IterOut :=
  match idxFrom t mAnchor searchPos with
  | none => .done
  | some markerPos =>
    match markupCandidate t markerPos with
    | none => .next [] none (markerPos + 1)
    | some (imgStart, jsonStart, jsonEnd, imgEnd) =>
      markupDecide probe opts t imgStart jsonStart jsonEnd imgEnd

/-- The tag-pushing tail of the legacy loop body: quote-normalise the
payload, `JSON.parse` it, and push the tag; a parse failure is logged and
dropped. Either way the loop resumes at `jsonEnd + 1`. -/

def legacyPush (t : Chars) (markerIndex jsonStart jsonEnd : Nat) : IterOut :=
  match jsonParse (legacyNorm (extractRange t jsonStart jsonEnd)) with
  | some data =>
    let fs := tagFieldsOf data
    .next [] (some
      { fullMatch := extractRange t markerIndex (jsonEnd + 1)
        index := markerIndex
        style := fs.1
        prompt := fs.2.1
        aspect := fs.2.2.1
        isize := fs.2.2.2.1
        quality := fs.2.2.2.2
        isNewFormat := false
        existingSrc := none }) (jsonEnd + 1)
  | none => .next [] none (jsonEnd + 1)

/-- One iteration of the legacy-family (`[IMG:GEN:{...}]`) scanning loop of
`parseImageTags`, from `searchStart`. -/

def legacyIter (t : Chars) (searchStart : Nat) : IterOut :=
  match idxFrom t lAnchor searchStart with
  | none => .done
  | some markerIndex =>
    match braceRunAux (t.drop (markerIndex + lAnchor.length))
        (markerIndex + lAnchor.length) 0 false false with
    | none => .next [] none (markerIndex + lAnchor.length)
    | some jsonEnd =>
      if (t.drop jsonEnd).headD ' ' ≠ ']' then .next [] none jsonEnd
      else legacyPush t markerIndex (markerIndex + lAnchor.length) jsonEnd

/-- The markup-family `while` loop; fuel is spent once per iteration and
`parseImageTags` supplies `t.length + 1`, which `markupLoop_fuel` below
shows is always enough. -/

def markupLoop (probe : Chars → Probe) (opts : ScanOpts) (t : Chars) :
    Nat → Nat → ScanOut
  | 0, _ => ⟨[], []⟩
  | f + 1, pos =>
    match markupIter probe opts t pos with
    | .done => ⟨[], []⟩
    | .next ps tg pos2 =>
      let rest := markupLoop probe opts t f pos2
      ⟨tg.toList ++ rest.tags, ps ++ rest.probes⟩

/-- The legacy-family `while` loop. -/

def legacyLoop (t : Chars) : Nat → Nat → List IigTag
  | 0, _ => []
  | f + 1, pos =>
    match legacyIter t pos with
    | .done => []
    | .next _ tg pos2 => tg.toList ++ legacyLoop t f pos2

/-- `parseImageTags(text, { checkExistence, forceAll })`: the markup-family
pass over the whole text followed by the legacy-family pass, pushing into
one tag array. The probe oracle stands for the awaited `checkFileExists`
HEAD requests. -/

def parseImageTags (probe : Chars → Probe) (t : Chars) (opts : ScanOpts) : ScanOut :=
  let m := markupLoop probe opts t (t.length + 1) 0
  let l := legacyLoop t (t.length + 1) 0
  ⟨m.tags ++ l, m.probes⟩

/-! ## Generation orchestrator: retry loop (`generateImageWithRetry`) -/

/-- Transient-failure classification of `src/index.js` (the duplicate module
`src/unnamed/part_000` omits the `'504'` and `'timeout'` checks). -/

def isRetryable (msg : Chars) : Bool :=
  jsIncludes msg ("429".data) || jsIncludes msg ("503".data) ||
  jsIncludes msg ("502".data) || jsIncludes msg ("504".data) ||
  jsIncludes msg ("timeout".data) || jsIncludes msg ("network".data)

def isRetryablePart000 (msg : Chars) : Bool :=
  jsIncludes msg ("429".data) || jsIncludes msg ("503".data) ||
  jsIncludes msg ("502".data) || jsIncludes msg ("network".data)

/-- Observable callback events of `generateImageWithRetry`:
`onStatusUpdate('Генерация…')` at each attempt start, and the backoff
notification carrying the wait duration issued right before the sleep. -/

inductive StatusEvent where
  | genStatus (attempt : Nat)
  | backoff (delayMs : Nat)
deriving DecidableEq

/-- The retry `for` loop of `generateImageWithRetry`, with the transient
classifier factored out as `retr` and the backend call
(`generateImageGemini` / `generateImageOpenAI` at attempt number `n`)
abstracted as the oracle `api`. `remaining = maxRetries - attempt`, so the
`attempt === maxRetries` break is `remaining = 0`. Returns the settled
result (`throw lastError` on exhaustion) and the callback event trace. -/

def retryLoop (retr : Chars → Bool) (api : Nat → Except Chars Chars)
    (baseDelay : Nat) : Nat → Nat → Except Chars Chars × List StatusEvent
  | 0, attempt =>
    match api attempt with
    | .ok v => (.ok v, [.genStatus attempt])
    | .error e => (.error e, [.genStatus attempt])
  | remaining + 1, attempt =>
    match api attempt with
    | .ok v => (.ok v, [.genStatus attempt])
    | .error e =>
      if !retr e then (.error e, [.genStatus attempt])
      else
        let delay := baseDelay * 2 ^ attempt
        let rest := retryLoop retr api baseDelay remaining (attempt + 1)
        (rest.1, .genStatus attempt :: .backoff delay :: rest.2)

/-- `generateImageWithRetry` (retry part; settings validation and
reference-image collection happen before the loop and do not affect it). -/

def generateImageWithRetry (api : Nat → Except Chars Chars)
    (maxRetries baseDelay : Nat) : Except Chars Chars × List StatusEvent :=
  retryLoop isRetryable api baseDelay maxRetries 0

/-- The wait durations the status callback observed, in order. -/

def backoffsOf (trace : List StatusEvent) : List Nat :=
  trace.filterMap (fun ev => match ev with
    | .backoff d => some d
    | _ => none)

/-! ## Gemini-style response parsing (`generateImageGemini`) -/

/-- `inlineData` / `inline_data` of a response part. -/

structure InlineImg where
  mime : Chars
  b64 : Chars
deriving DecidableEq

/-- One element of `candidates[0].content.parts`. -/

structure GPart where
  inlineCamel : Option InlineImg
  inlineSnake : Option InlineImg
  text : Option Chars
deriving DecidableEq

/-- One element of `result.candidates`. -/

structure GCandidate where
  content : Option (List GPart)
  finishReason : Option Chars
deriving DecidableEq

/-- The parsed JSON body of a Gemini-style success response. -/

structure GResponse where
  candidates : List GCandidate
  blockReason : Option Chars
deriving DecidableEq

instance : Inhabited GCandidate := ⟨⟨none, none⟩⟩

def dataUrlOf (d : InlineImg) : Chars :=
  "data:".data ++ d.mime ++ ";base64,".data ++ d.b64

/-- The inline-image scan over response parts, checking the camelCase field
then the snake_case field on each part in order. -/

def findInline : List GPart → Option Chars
  | [] => none
  | p :: ps =>
    match p.inlineCamel with
    | some d => some (dataUrlOf d)
    | none =>
      match p.inlineSnake with
      | some d => some (dataUrlOf d)
      | none => findInline ps

/-- Response parsing of `generateImageGemini` in `src/index.js`
(lines 459-480): candidates check, inline-image scan, and a flat
`'No image found in Gemini response'` failure — no text fallback. -/

def geminiParseIndex (r : GResponse) : Except Chars Chars :=
  if r.candidates.isEmpty then .error ("No candidates in response".data)
  else
    let parts := (r.candidates.headD default).content.getD []
    match findInline parts with
    | some s => .ok s
    | none => .error ("No image found in Gemini response".data)

/-- `!\[.*?\]\((.*?)\)` capture at the head of `s` (after `![`): scan to the
first `](` on the same line, then capture up to `)`. -/

def mdCap : Chars → Chars → Option Chars
  | [], _ => none
  | ')' :: _, acc => some acc.reverse
  | '\n' :: _, _ => none
  | c :: r, acc => mdCap r (c :: acc)

def mdScanAlt : Chars → Option Chars
  | [] => none
  | ']' :: '(' :: r => mdCap r []
  | '\n' :: _ => none
  | _ :: r => mdScanAlt r

/-- First markdown-image link capture, `text.match(/!\[.*?\]\((.*?)\)/)`. -/

def findMdImage : Chars → Option Chars
  | [] => none
  | '!' :: '[' :: r =>
    match mdScanAlt r with
    | some c => some c
    | none => findMdImage ('[' :: r)
  | _ :: r => findMdImage r

/-- `(https?:\/\/[^\s)]+)` match at the head of `s`. -/

def urlAt (s : Chars) : Option Chars :=
  match s with
  | 'h' :: 't' :: 't' :: 'p' :: r =>
    let sr : Bool × Chars :=
      match r with
      | 's' :: rr => (true, rr)
      | _ => (false, r)
    match sr.2 with
    | ':' :: '/' :: '/' :: r2 =>
      let tk := r2.takeWhile (fun c => ¬ (isWsJS c ∨ c = ')'))
      if tk.isEmpty then none
      else some ("http".data ++ (if sr.1 then ['s'] else []) ++ ':' :: '/' :: '/' :: tk)
    | _ => none
  | _ => none

/-- First bare-URL capture, `text.match(/(https?:\/\/[^\s)]+)/)`. -/

def findUrl : Chars → Option Chars
  | [] => none
  | c :: cs =>
    match urlAt (c :: cs) with
    | some v => some v
    | none => findUrl cs

/-- `imgMatch` of the text-fallback in `part_000`: markdown-image capture,
else bare-URL capture. -/

def textImgMatch (text : Chars) : Option Chars :=
  match findMdImage text with
  | some c => some c
  | none => findUrl text

/-- `finishReason && finishReason !== 'STOP'` (JS truthiness on strings). -/

def refusalReason (fr : Option Chars) : Option Chars :=
  match fr with
  | some f => if !f.isEmpty && f ≠ "STOP".data then some f else none
  | none => none

/-- `responseParts.find(p => p.text)` — the first part with truthy text. -/

def firstTextPart (parts : List GPart) : Option GPart :=
  parts.find? (fun p => match p.text with
    | some s => !s.isEmpty
    | none => false)

/-- The refusal-with-reason failure message (`finishReason` present and not
`STOP`), carrying a 100-character excerpt of the text part. -/

def refusalMsg (fr excerpt : Chars) : Chars :=
  "Отказ генерации (".data ++ fr ++ "): \"".data ++ excerpt ++ "\"...".data

/-- The text-without-image failure message, carrying the 100-character
excerpt of the refusal text. -/

def noImageTextMsg (excerpt : Chars) : Chars :=
  "Модель ответила текстом без картинки: \"".data ++ excerpt ++ "\"...".data

/-- The generic no-image-no-text failure message. -/

def noImageNoTextMsg : Chars := "В ответе нет ни картинки, ни текста.".data

/-- Response parsing of `generateImageGemini` in `src/unnamed/part_000`
(lines 485-537): candidates / safety-block check, inline-image scan over
both field spellings, then the text fallback — markdown link or bare URL,
downloaded and inlined via the `dl` oracle (`imageUrlToBase64`, `none` on
failure) or returned as a remote URL — and the three distinguishable
no-image failures. -/

def geminiParsePart000 (dl : Chars → Option Chars) (r : GResponse) :
    Except Chars Chars :=
  if r.candidates.isEmpty then
    match r.blockReason with
    | some br => .error ("Блокировка промпта (Safety): ".data ++ br)
    | none => .error ("Пустой ответ от модели.".data)
  else
    match findInline ((r.candidates.headD default).content.getD []) with
    | some s => .ok s
    | none =>
      match firstTextPart ((r.candidates.headD default).content.getD []) with
      | some tp =>
        match textImgMatch (tp.text.getD []) with
        | some imgUrl =>
          match dl imgUrl with
          | some b64 => .ok ("data:image/jpeg;base64,".data ++ b64)
          | none => .ok imgUrl
        | none =>
          match refusalReason (r.candidates.headD default).finishReason with
          | some fr => .error (refusalMsg fr ((tp.text.getD []).take 100))
          | none => .error (noImageTextMsg ((tp.text.getD []).take 100))
      | none => .error noImageNoTextMsg

/-! ## Message mutator / reconciler (`processMessageTags`,
`regenerateMessageImages`)

The host state is modelled as an explicit record. DOM node bookkeeping is
abstracted: `domMes id` stands for both `document.querySelector('#chat
.mes[mesid=...]')` and its `.mes_text` child being found, and individual
node replacements (`replaceWith` / `appendChild` / legacy `innerHTML`
splicing) are counted in `domMut` rather than tracked structurally.
Generation outcomes and image saving are oracles (`gen` by tag position,
`saveImg` by data URL). `Promise.all` over tags is modelled by folding the
per-tag updates in order; each per-tag update touches disjoint
observables, so completion order does not change the final record. -/

/-- A chat message (`context.chat[messageId]`). -/

structure Message where
  mes : Chars
  is_user : Bool
deriving DecidableEq

/-- Host-visible state touched by the reconciler. -/

structure World where
  enabled : Bool
  processing : List Nat
  chat : List Message
  domMes : List Nat
  domInstr : List Nat
  domMut : Nat
  toasts : Nat
  saveCalls : Nat
deriving DecidableEq

def ERROR_IMAGE_PATH : Chars := "/scripts/extensions/third-party/sillyimages/error.svg".data

/-- Match of `/src\s*=\s*(['"])[^'"]*\1/i` at the head of `s`: returns the
full span length when the head matches (the backreference forces the
closing quote to equal the opening one). -/

def srcAttrSpanAt (s : Chars) : Option Nat :=
  match s with
  | c1 :: c2 :: c3 :: rest =>
    if c1.toLower = 's' ∧ c2.toLower = 'r' ∧ c3.toLower = 'c' then
      let w1 := rest.takeWhile isWsJS
      match rest.dropWhile isWsJS with
      | '=' :: r2 =>
        let w2 := r2.takeWhile isWsJS
        match r2.dropWhile isWsJS with
        | q :: r4 =>
          if q = '"' ∨ q = '\'' then
            let body := r4.takeWhile (fun c => c ≠ '"' ∧ c ≠ '\'')
            match r4.dropWhile (fun c => c ≠ '"' ∧ c ≠ '\'') with
            | q2 :: _ =>
              if q2 = q then
                some (3 + w1.length + 1 + w2.length + 1 + body.length + 1)
              else none
            | [] => none
          else none
        | [] => none
      | _ => none
    else none
  | _ => none

/-- `str.replace(/src\s*=\s*(['"])[^'"]*\1/i, 'src="' + path + '"')`. -/

def replaceSrcAttr : Chars → Chars → Chars
  | [], _ => []
  | c :: cs, path =>
    match srcAttrSpanAt (c :: cs) with
    | some span => "src=\"".data ++ path ++ ['"'] ++ (c :: cs).drop span
    | none => c :: replaceSrcAttr cs path

/-- The per-tag body of `processMessageTags` (the `processTag` closure):
returns the updated persisted message text together with the DOM-mutation
and toast counts it performs. Two node swaps happen on success or failure
(loading placeholder in, final/error image in). -/

def processTagModel (gen : Nat → Except Chars Chars) (saveImg : Chars → Chars)
    (idx : Nat) (tag : IigTag) (mes : Chars) : Chars × Nat × Nat :=
  match gen idx with
  | .ok dataUrl =>
    let imagePath := saveImg dataUrl
    let newMes :=
      if tag.isNewFormat then
        replaceFirst mes tag.fullMatch (replaceSrcAttr tag.fullMatch imagePath)
      else
        replaceFirst mes tag.fullMatch ("[IMG:✓:".data ++ imagePath ++ [']'])
    (newMes, 2, 1)
  | .error e =>
    let newMes :=
      if tag.isNewFormat then
        replaceFirst mes tag.fullMatch (replaceSrcAttr tag.fullMatch ERROR_IMAGE_PATH)
      else
        replaceFirst mes tag.fullMatch ("[IMG:ERROR:".data ++ e.take 50 ++ [']'])
    (newMes, 2, 1)

/-- Fold of all per-tag updates (`Promise.all(tags.map(processTag))`). -/

def processAllTags (gen : Nat → Except Chars Chars) (saveImg : Chars → Chars)
    (tags : List IigTag) (mes0 : Chars) : Chars × Nat × Nat :=
  (tags.enum.foldl (fun acc tg =>
    let r := processTagModel gen saveImg tg.1 tg.2 acc.1
    (r.1, acc.2.1 + r.2.1, acc.2.2 + r.2.2)) (mes0, 0, 0))

/-- `processMessageTags(messageId)`. -/

def processMessageTags (probe : Chars → Probe) (gen : Nat → Except Chars Chars)
    (saveImg : Chars → Chars) (w : World) (messageId : Nat) : World :=
  if !w.enabled then w
  else if messageId ∈ w.processing then w
  else
    match w.chat.get? messageId with
    | none => w
    | some message =>
      if message.is_user then w
      else
        let scan := parseImageTags probe message.mes { checkExistence := true }
        if scan.tags.isEmpty then w
        else
          let w1 := { w with processing := messageId :: w.processing,
                             toasts := w.toasts + 1 }
          if messageId ∉ w.domMes then w1
          else
            let r := processAllTags gen saveImg scan.tags message.mes
            let w2 := { w1 with
              chat := w1.chat.set messageId { message with mes := r.1 },
              domMut := w1.domMut + r.2.1,
              toasts := w1.toasts + r.2.2 }
            let w3 := { w2 with processing := w2.processing.erase messageId }
            { w3 with saveCalls := w3.saveCalls + 1 }

/-- One iteration of the sequential regenerate loop: only acts when an
`img[data-iig-instruction]` element is currently rendered (`instrImg`). -/

def regenTagModel (gen : Nat → Except Chars Chars) (saveImg : Chars → Chars)
    (instrImg : Bool) (idx : Nat) (tag : IigTag) (mes : Chars) : Chars × Nat × Nat :=
  if !instrImg then (mes, 0, 0)
  else
    match gen idx with
    | .ok dataUrl =>
      let imagePath := saveImg dataUrl
      (replaceFirst mes tag.fullMatch (replaceSrcAttr tag.fullMatch imagePath), 2, 1)
    | .error _ => (mes, 1, 1)

def regenAllTags (gen : Nat → Except Chars Chars) (saveImg : Chars → Chars)
    (instrImg : Bool) (tags : List IigTag) (mes0 : Chars) : Chars × Nat × Nat :=
  (tags.enum.foldl (fun acc tg =>
    let r := regenTagModel gen saveImg instrImg tg.1 tg.2 acc.1
    (r.1, acc.2.1 + r.2.1, acc.2.2 + r.2.2)) (mes0, 0, 0))

/-- `regenerateMessageImages(messageId)` — the user-triggered forced
regenerate. Note: unlike `processMessageTags`, it never consults the
`processingMessages` set before proceeding. -/

def regenerateMessageImages (probe : Chars → Probe) (gen : Nat → Except Chars Chars)
    (saveImg : Chars → Chars) (w : World) (messageId : Nat) : World :=
  match w.chat.get? messageId with
  | none => { w with toasts := w.toasts + 1 }
  | some message =>
    let scan := parseImageTags probe message.mes { forceAll := true }
    if scan.tags.isEmpty then { w with toasts := w.toasts + 1 }
    else
      let w1 := { w with toasts := w.toasts + 1,
                         processing := messageId :: w.processing }
      if messageId ∉ w.domMes then
        { w1 with processing := w1.processing.erase messageId }
      else
        let r := regenAllTags gen saveImg (messageId ∈ w.domInstr) scan.tags message.mes
        let w2 := { w1 with
          chat := w1.chat.set messageId { message with mes := r.1 },
          domMut := w1.domMut + r.2.1,
          toasts := w1.toasts + r.2.2 }
        let w3 := { w2 with processing := w2.processing.erase messageId }
        { w3 with saveCalls := w3.saveCalls + 1 }

/-! ## Claim C3: existence-probe policy for resolved markup sources -/

/-- A markup tag whose source is a resolved server-relative path. -/

def pathTagText : Chars :=
  "<img data-iig-instruction=\x7b\"prompt\":\"x\"\x7d src=\"/img/abcd.png\">".data

/-! ## Claim C9: tag ranges -/

/-- A text on which the bounded lookback re-captures the first `<img`: the
second attribute marker is not inside any element, but
`lastIndexOf('<img', ...)` still finds the first element within 500
characters. -/

def overlapText : Chars :=
  ("<img data-iig-instruction=\x7b\"a\":1\x7d src=\"[IMG:GEN]\"> " ++
   "data-iig-instruction=\x7b\"b\":2\x7d>").data

/-! ## Claim C4: retry policy of `generateImageWithRetry` -/

/-- The callback trace the retry policy prescribes for `j` retries starting
at attempt `base`: an attempt-start notification per attempt and a backoff
notification of `baseDelay * 2 ^ attempt` before each sleep. -/

def retryTrace (bd : Nat) : Nat → Nat → List StatusEvent
  | base, 0 => [.genStatus base]
  | base, j + 1 =>
    .genStatus base :: .backoff (bd * 2 ^ base) :: retryTrace bd (base + 1) j

/-- The spec's own retry scenario: a 503 `ApiError` on the first two
attempts, success on the third. -/

def api503 : Nat → Except Chars Chars := fun n =>
  if n < 2 then .error ("API Error (503): Service Unavailable".data)
  else .ok ("data:image/png;base64,QUJD".data)

/-- A fully resolved chat message (its one-time legacy marker has been
rewritten to the resolved form). -/

def resolvedMsg : Message := { mes := "Hello [IMG:✓:/a.png] world".data, is_user := false }

def resolvedWorld : World :=
  { enabled := true, processing := [], chat := [resolvedMsg], domMes := [0],
    domInstr := [], domMut := 0, toasts := 0, saveCalls := 0 }

/-! ## Claim C6: the re-entrancy gate -/

/-- A world in which message 0 is currently being reconciled (its id is in
the process-wide processing set) and whose message holds a legacy marker. -/

def inFlightWorld : World :=
  { enabled := true, processing := [0],
    chat := [{ mes := "[IMG:GEN:\x7b\"prompt\":\"x\"\x7d]".data, is_user := false }],
    domMes := [0], domInstr := [], domMut := 0, toasts := 0, saveCalls := 0 }

/-! ## C7: the Gemini no-image fallback -/

/-- A success response whose only part is a text part holding a
markdown-image link — no inline image data under either field spelling. -/

def gRespMd : GResponse :=
  ⟨[⟨some [⟨none, none, some ("![x](http://a/b.png)".data)⟩],
     some ("STOP".data)⟩], none⟩

/-- A success response whose only part is plain refusal text, finished with
a non-`STOP` reason. -/

def gRespWit : GResponse :=
  ⟨[⟨some [⟨none, none, some ("hello".data)⟩], some ("SAFETY".data)⟩], none⟩

/-- The fixed element prefix `<img data-iig-instruction=` of a well-formed
markup marker. -/

def mPre : Chars := "<img data-iig-instruction=".data

/-- A well-formed markup-family marker: the minimal instruction element
carrying the attribute and its JSON payload. -/

def mRender (j : Chars) : Chars := mPre ++ j ++ ['>']

/-- A well-formed legacy-family marker `[IMG:GEN:{...}]`. -/

def lRender (j : Chars) : Chars := lAnchor ++ j ++ [']']

/-- Local well-formedness of a markup marker payload: starts with `{`, the
balanced-brace scan consumes exactly the payload, the entity-normalised
payload parses as JSON, and the rendered element carries no `src`
attribute. -/

def markupOk (j : Chars) : Bool :=
  (j.headD ' ' == '{') && (braceRunAux j 0 0 false false == some j.length) &&
  (jsonParse (entityNorm j)).isSome && (findSrc (mRender j)).isNone

/-- Local well-formedness of a legacy marker payload. -/

def legacyOk (j : Chars) : Bool :=
  (braceRunAux j 0 0 false false == some j.length) &&
  (jsonParse (legacyNorm j)).isSome

/-- The tag the Scanner builds for a well-formed markup marker at `p`. -/

def mkMarkupTag (j : Chars) (p : Nat) : IigTag :=
  let fs := tagFieldsOf ((jsonParse (entityNorm j)).getD Json.null)
  { fullMatch := mRender j, index := p, style := fs.1, prompt := fs.2.1,
    aspect := fs.2.2.1, isize := fs.2.2.2.1, quality := fs.2.2.2.2,
    isNewFormat := true, existingSrc := none }

/-- The tag the Scanner builds for a well-formed legacy marker at `p`. -/

def mkLegacyTag (j : Chars) (p : Nat) : IigTag :=
  let fs := tagFieldsOf ((jsonParse (legacyNorm j)).getD Json.null)
  { fullMatch := lRender j, index := p, style := fs.1, prompt := fs.2.1,
    aspect := fs.2.2.1, isize := fs.2.2.2.1, quality := fs.2.2.2.2,
    isNewFormat := false, existingSrc := none }

/-- A mixed two-marker fixture: one markup element and one legacy marker
separated by glue text. -/

def c1MJ : Chars := "\x7b\"prompt\":\"x\"\x7d".data

def c1LJ : Chars := "\x7b\"prompt\":\"y\"\x7d".data

def c1Text : Chars :=
  "A ".data ++ mRender c1MJ ++ " B ".data ++ lRender c1LJ ++ " C".data

def c1Ms : List (Nat × Chars) := [(2, c1MJ)]

def c1Ls : List (Nat × Chars) := [(46, c1LJ)]

theorem occAt_append_left {a b P : Chars} {p : Nat} (h : OccAt a P p)
    (hfit : p + P.length ≤ a.length) : OccAt (a ++ b) P p := by
  rcases h with ⟨s, hs⟩
  refine ⟨s ++ b, ?_⟩
  rw [List.drop_append_of_le_length (by omega), ← hs, List.append_assoc]

theorem occAt_append_shift {a b P : Chars} {j : Nat} :
    OccAt (a ++ b) P (a.length + j) ↔ OccAt b P j := by
  unfold OccAt
  rw [List.drop_append]

theorem occAt_length_le {t P : Chars} {p : Nat} (h : OccAt t P p) :
    p + P.length ≤ t.length ∨ t.length ≤ p := by
  rcases h with ⟨s, hs⟩
  by_cases hp : p ≤ t.length
  · left
    have := congrArg List.length hs
    simp [List.length_drop] at this
    omega
  · right; omega

/-- Any occurrence that covers index `j` of `t` reads the character `t[j]`
inside `P`; used to rule out pattern occurrences spanning block junctions. -/

theorem occAt_covers {t P : Chars} {p j : Nat} (h : OccAt t P p)
    (h1 : p ≤ j) (h2 : j < p + P.length) (hj : j < t.length) :
    t[j] ∈ P := by
  have hjp : j - p < P.length := by omega
  have hd : j - p < (t.drop p).length := by
    simp only [List.length_drop]; omega
  have hb : p + (j - p) < t.length := by omega
  have e1 : P[j - p] = (t.drop p)[j - p] := h.getElem hjp
  have e2 : (t.drop p)[j - p] = t[p + (j - p)] := List.getElem_drop t
  have e3 : t[p + (j - p)] = t[j] := by
    congr 1
    omega
  have e4 : P[j - p] = t[j] := by rw [e1, e2, e3]
  rw [← e4]
  exact List.getElem_mem hjp

theorem isPrefixOf_iff {P s : Chars} : P.isPrefixOf s = true ↔ P <+: s := by
  exact List.isPrefixOf_iff_prefix

theorem idxFromAux_ge {P rem : Chars} {i p : Nat}
    (h : idxFromAux P rem i = some p) : i ≤ p := by
  induction rem generalizing i with
  | nil =>
    unfold idxFromAux at h
    split at h
    · simp only [Option.some.injEq] at h; omega
    · simp at h
  | cons c cs ih =>
    unfold idxFromAux at h
    split at h
    · simp only [Option.some.injEq] at h; omega
    · have := ih h; omega

theorem idxFromAux_prefix {P rem : Chars} {i p : Nat}
    (h : idxFromAux P rem i = some p) : P <+: rem.drop (p - i) := by
  induction rem generalizing i with
  | nil =>
    unfold idxFromAux at h
    split at h
    · rename_i he
      simp only [Option.some.injEq] at h
      subst h
      rcases P with _ | ⟨c, cs⟩
      · simp
      · simp [List.isEmpty] at he
    · simp at h
  | cons c cs ih =>
    unfold idxFromAux at h
    split at h
    · rename_i hpre
      simp only [Option.some.injEq] at h
      subst h
      simpa using isPrefixOf_iff.mp hpre
    · have hge := idxFromAux_ge h
      have := ih h
      have hstep : p - i = (p - (i + 1)) + 1 := by omega
      rw [hstep]
      simpa using this

/-- `idxFrom` only returns true occurrence positions at or after `start`. -/

theorem idxFrom_occ {t P : Chars} {s p : Nat}
    (h : idxFrom t P s = some p) : OccAt t P p ∧ s ≤ p := by
  unfold idxFrom at h
  have hge := idxFromAux_ge h
  have hpre := idxFromAux_prefix h
  rw [List.drop_drop] at hpre
  constructor
  · show P <+: t.drop p
    have : s + (p - s) = p := by omega
    rwa [this] at hpre
  · exact hge

theorem idxFromAux_min {P rem : Chars} {i p q : Nat}
    (h : idxFromAux P rem i = some p) (h1 : i ≤ q) (h2 : q < p) :
    ¬ P <+: rem.drop (q - i) := by
  induction rem generalizing i with
  | nil =>
    unfold idxFromAux at h
    split at h
    · rename_i he
      simp only [Option.some.injEq] at h
      omega
    · simp at h
  | cons c cs ih =>
    unfold idxFromAux at h
    split at h
    · simp only [Option.some.injEq] at h
      omega
    · rename_i hpre
      rcases Nat.eq_or_lt_of_le h1 with he | hlt
      · subst he
        simpa [isPrefixOf_iff] using hpre
      · have hstep : q - i = (q - (i + 1)) + 1 := by omega
        rw [hstep]
        simpa using ih h (by omega)

theorem idxFromAux_none {P rem : Chars} {i q : Nat}
    (h : idxFromAux P rem i = none) (hP : P ≠ []) (h1 : i ≤ q) :
    ¬ P <+: rem.drop (q - i) := by
  induction rem generalizing i with
  | nil =>
    intro hc
    rw [List.drop_nil] at hc
    exact hP (List.prefix_nil.mp hc)
  | cons c cs ih =>
    unfold idxFromAux at h
    split at h
    · simp at h
    · rename_i hpre
      rcases Nat.eq_or_lt_of_le h1 with he | hlt
      · subst he
        simpa [isPrefixOf_iff] using hpre
      · have hstep : q - i = (q - (i + 1)) + 1 := by omega
        rw [hstep]
        simpa using ih h (by omega)

/-- Positions strictly before the result of `idxFrom` carry no occurrence. -/

theorem idxFrom_min {t P : Chars} {s p q : Nat}
    (h : idxFrom t P s = some p) (h1 : s ≤ q) (h2 : q < p) : ¬ OccAt t P q := by
  unfold idxFrom at h
  have := idxFromAux_min h h1 h2
  rw [List.drop_drop] at this
  have he : s + (q - s) = q := by omega
  rwa [he] at this

/-- If `idxFrom` reports no occurrence, there is none at or after `start`. -/

theorem idxFrom_none {t P : Chars} {s q : Nat}
    (h : idxFrom t P s = none) (hP : P ≠ []) (h1 : s ≤ q) : ¬ OccAt t P q := by
  unfold idxFrom at h
  have := idxFromAux_none h hP h1
  rw [List.drop_drop] at this
  have he : s + (q - s) = q := by omega
  rwa [he] at this

theorem idxFromAux_of_prefix {P rem : Chars} {i k : Nat}
    (h : P <+: rem.drop k) (hk : k + P.length ≤ rem.length) :
    ∃ p, idxFromAux P rem i = some p ∧ p ≤ i + k := by
  induction rem generalizing i k with
  | nil =>
    rcases P with _ | _
    · exact ⟨i, by simp [idxFromAux, List.isEmpty], by omega⟩
    · simp at hk
  | cons c cs ih =>
    unfold idxFromAux
    split
    · exact ⟨i, rfl, by omega⟩
    · rename_i hpre
      rcases k with _ | k
      · rw [List.drop_zero] at h
        rw [isPrefixOf_iff] at hpre
        exact absurd h (by simpa using hpre)
      · have hd : P <+: cs.drop k := by simpa using h
        have hk2 : k + P.length ≤ cs.length := by
          simp only [List.length_cons] at hk
          omega
        obtain ⟨p, hp, hple⟩ := ih hd hk2
        exact ⟨p, hp, by omega⟩

/-- If an occurrence exists at or after `start`, `idxFrom` finds one no later. -/

theorem idxFrom_of_occ {t P : Chars} {s p : Nat}
    (h : OccAt t P p) (h1 : s ≤ p) (hfit : p + P.length ≤ t.length) :
    ∃ r, idxFrom t P s = some r ∧ r ≤ p := by
  unfold idxFrom
  have hd : P <+: (t.drop s).drop (p - s) := by
    rw [List.drop_drop]
    have he : s + (p - s) = p := by omega
    rwa [he]
  have hfit2 : (p - s) + P.length ≤ (t.drop s).length := by
    simp only [List.length_drop]
    omega
  obtain ⟨r, hr, hrle⟩ := idxFromAux_of_prefix (i := s) hd hfit2
  exact ⟨r, hr, by omega⟩

/-- Exact characterisation used to compute `idxFrom` at a known position:
`p` is an occurrence at or after `s` and nothing earlier is. -/

theorem idxFrom_eq_some {t P : Chars} {s p : Nat}
    (h : OccAt t P p) (h1 : s ≤ p) (hfit : p + P.length ≤ t.length)
    (hmin : ∀ q, s ≤ q → q < p → ¬ OccAt t P q) :
    idxFrom t P s = some p := by
  obtain ⟨r, hr, hrle⟩ := idxFrom_of_occ h h1 hfit
  have hocc := idxFrom_occ hr
  rcases Nat.eq_or_lt_of_le hrle with he | hlt
  · rw [he] at hr; exact hr
  · exact absurd hocc.1 (hmin r hocc.2 hlt)

theorem lastIdxLeAux_spec {t P : Chars} {k p : Nat}
    (h : lastIdxLeAux t P k = some p) :
    OccAt t P p ∧ p ≤ k ∧ ∀ q, q ≤ k → OccAt t P q → q ≤ p := by
  induction k with
  | zero =>
    unfold lastIdxLeAux at h
    split at h
    · simp only [Option.some.injEq] at h
      subst h
      exact ⟨by assumption, Nat.le_refl _, fun q hq _ => hq⟩
    · simp at h
  | succ k ih =>
    unfold lastIdxLeAux at h
    split at h
    · simp only [Option.some.injEq] at h
      subst h
      exact ⟨by assumption, Nat.le_refl _, fun q hq _ => hq⟩
    · rename_i hno
      obtain ⟨ho, hle, hmax⟩ := ih h
      refine ⟨ho, by omega, fun q hq hocc => ?_⟩
      rcases Nat.eq_or_lt_of_le hq with he | hlt
      · exact absurd (he ▸ hocc) hno
      · exact hmax q (by omega) hocc

theorem lastIdxLeAux_of_occ {t P : Chars} {k p : Nat}
    (h : OccAt t P p) (h1 : p ≤ k) : ∃ r, lastIdxLeAux t P k = some r := by
  induction k with
  | zero =>
    have : p = 0 := by omega
    subst this
    exact ⟨0, by simp [lastIdxLeAux, h]⟩
  | succ k ih =>
    unfold lastIdxLeAux
    split
    · exact ⟨k + 1, rfl⟩
    · rename_i hno
      have hpk : p ≤ k := by
        rcases Nat.eq_or_lt_of_le h1 with he | hlt
        · exact absurd (he ▸ h) hno
        · omega
      exact ih hpk

/-- Exact characterisation used to compute `lastIdxLe` at a known position. -/

theorem lastIdxLe_eq_some {t P : Chars} {u p : Nat}
    (h : OccAt t P p) (h1 : p ≤ u)
    (hmax : ∀ q, p < q → q ≤ u → ¬ OccAt t P q) :
    lastIdxLe t P u = some p := by
  obtain ⟨r, hr⟩ := lastIdxLeAux_of_occ h h1
  obtain ⟨ho, hle, hm⟩ := lastIdxLeAux_spec hr
  have hpr : p ≤ r := hm p h1 h
  rcases Nat.eq_or_lt_of_le hpr with he | hlt
  · rw [← he] at hr; exact hr
  · exact absurd ho (hmax r hlt hle)

theorem idxFromAux_add {P rem : Chars} {i c : Nat} :
    idxFromAux P rem (i + c) = (idxFromAux P rem i).map (· + c) := by
  induction rem generalizing i with
  | nil =>
    unfold idxFromAux
    split <;> simp
  | cons d ds ih =>
    unfold idxFromAux
    split
    · simp
    · have := ih (i := i + 1)
      rw [show i + 1 + c = i + c + 1 by omega] at this
      exact this

/-- Searching a concatenation from a position past the first part is the
shifted search of the second part. -/

theorem idxFrom_shift {a b P : Chars} {k : Nat} :
    idxFrom (a ++ b) P (a.length + k) = (idxFrom b P k).map (· + a.length) := by
  unfold idxFrom
  rw [List.drop_append]
  rw [show a.length + k = k + a.length by omega]
  exact idxFromAux_add

theorem getElem_idx_congr {α : Type} {l : List α} {i j : Nat} (hij : i = j)
    (hi : i < l.length) (hj : j < l.length) : l[i] = l[j] := by
  subst hij
  rfl

theorem prefix_of_append_short {P x y : Chars} (h : P <+: x ++ y)
    (hl : P.length ≤ x.length) : P <+: x := by
  rw [List.prefix_iff_eq_take] at h
  rw [List.take_append_of_le_length hl] at h
  rw [List.prefix_iff_eq_take]
  exact h

theorem occAt_append_inv_left {a b P : Chars} {q : Nat}
    (h : OccAt (a ++ b) P q) (hfit : q + P.length ≤ a.length) : OccAt a P q := by
  have hq : q ≤ a.length := by omega
  unfold OccAt at h ⊢
  rw [List.drop_append_of_le_length hq] at h
  exact prefix_of_append_short h (by simp [List.length_drop]; omega)

theorem occAt_ne_nil_fit {t P : Chars} {p : Nat} (h : OccAt t P p) (hP : P ≠ []) :
    p + P.length ≤ t.length := by
  rcases occAt_length_le h with hle | hge
  · exact hle
  · exfalso
    have : t.drop p = [] := List.drop_eq_nil_of_le hge
    unfold OccAt at h
    rw [this] at h
    exact hP (List.prefix_nil.mp h)

/-- Variant of `occAt_covers` returning the exact pattern character. -/

theorem occAt_get {t P : Chars} {p j : Nat} (h : OccAt t P p)
    (h1 : p ≤ j) (h2 : j - p < P.length) (hj : j < t.length) :
    P[j - p] = t[j] := by
  have hd : j - p < (t.drop p).length := by
    simp only [List.length_drop]; omega
  have hb : p + (j - p) < t.length := by omega
  have e1 : P[j - p] = (t.drop p)[j - p] := h.getElem h2
  have e2 : (t.drop p)[j - p] = t[p + (j - p)] := List.getElem_drop t
  have e3 : t[p + (j - p)] = t[j] := by
    congr 1
    omega
  rw [e1, e2, e3]

theorem idxFrom_eq_none {t P : Chars} {s : Nat}
    (h : ∀ q, s ≤ q → ¬ OccAt t P q) : idxFrom t P s = none := by
  cases hi : idxFrom t P s with
  | none => rfl
  | some p =>
    have := idxFrom_occ hi
    exact absurd this.1 (h p this.2)

/-- No pattern occurrence spans from `a` into `b` when `b`'s first character
appears at no positive index of the pattern. -/

theorem no_span_of_head {a b P : Chars} {c : Char} {q : Nat}
    (hb : b ≠ []) (hc : b.headD ' ' = c) (hP : c ∉ P.drop 1)
    (h : OccAt (a ++ b) P q) : q + P.length ≤ a.length ∨ a.length ≤ q := by
  by_contra hcon
  push_neg at hcon
  obtain ⟨h1, h2⟩ := hcon
  have hPne : P ≠ [] := by
    intro he
    rw [he] at h1
    simp at h1
    omega
  have hfit := occAt_ne_nil_fit h hPne
  have hja : a.length < (a ++ b).length := by
    simp only [List.length_append]
    rcases b with _ | _
    · exact absurd rfl hb
    · simp
  have hidx : a.length - q < P.length := by omega
  have hget := occAt_get h (by omega) hidx hja
  have hval : (a ++ b)[a.length] = c := by
    rw [List.getElem_append_right (by omega)]
    simp only [Nat.sub_self]
    rcases b with _ | ⟨d, ds⟩
    · exact absurd rfl hb
    · simpa using hc
  rw [hval] at hget
  apply hP
  have hpos : 1 ≤ a.length - q := by omega
  have hd1 : a.length - q - 1 < (P.drop 1).length := by
    simp only [List.length_drop]; omega
  have hb1 : 1 + (a.length - q - 1) < P.length := by omega
  have e1 : (P.drop 1)[a.length - q - 1] = P[1 + (a.length - q - 1)] :=
    List.getElem_drop P
  have e2 : P[1 + (a.length - q - 1)] = P[a.length - q] :=
    getElem_idx_congr (by omega) hb1 hidx
  have e3 : (P.drop 1)[a.length - q - 1] = c := by rw [e1, e2, hget]
  rw [← e3]
  exact List.getElem_mem hd1

/-- No pattern occurrence spans from `a` into `b` when `a`'s last character
does not appear in the pattern. -/

theorem no_span_of_last {a b P : Chars} {c : Char} {q : Nat}
    (ha : a ≠ []) (hc : a.getLast? = some c) (hP : c ∉ P)
    (h : OccAt (a ++ b) P q) : q + P.length ≤ a.length ∨ a.length ≤ q := by
  by_contra hcon
  push_neg at hcon
  obtain ⟨h1, h2⟩ := hcon
  have hPne : P ≠ [] := by
    intro he
    rw [he] at h1
    simp at h1
    omega
  have hane : 0 < a.length := List.length_pos.mpr ha
  have hja : a.length - 1 < (a ++ b).length := by
    simp only [List.length_append]
    omega
  have hidx : (a.length - 1) - q < P.length := by omega
  have hget := occAt_get h (by omega) hidx hja
  have hval : (a ++ b)[a.length - 1] = c := by
    rw [List.getElem_append_left (by omega)]
    have hsome := List.getLast?_eq_getElem? a
    rw [hc, List.getElem?_eq_getElem (by omega)] at hsome
    simpa using hsome.symm
  rw [hval] at hget
  apply hP
  rw [← hget]
  exact List.getElem_mem hidx

/-- First-occurrence positions inside a prefix block survive extending the
text to the right, provided the occurrence fits inside the block. -/

theorem idxFrom_lift_first {a b P : Chars} {s p : Nat}
    (h : idxFrom a P s = some p) (hfit : p + P.length ≤ a.length) :
    idxFrom (a ++ b) P s = some p := by
  obtain ⟨hocc, hsp⟩ := idxFrom_occ h
  apply idxFrom_eq_some (occAt_append_left hocc hfit) hsp
    (by simp only [List.length_append]; omega)
  intro q hq1 hq2 hoccq
  have hqfit : q + P.length ≤ a.length := by omega
  exact idxFrom_min h hq1 hq2 (occAt_append_inv_left hoccq hqfit)

/-- Skipping a block that holds no occurrence at or after `s` and that no
occurrence spans out of: the search continues in the right part. -/

theorem idxFrom_skip_block {a b P : Chars} {s : Nat}
    (hs : s ≤ a.length) (hP : P ≠ [])
    (hnone : idxFrom a P s = none)
    (hspan : ∀ q, OccAt (a ++ b) P q → q + P.length ≤ a.length ∨ a.length ≤ q) :
    idxFrom (a ++ b) P s = (idxFrom b P 0).map (· + a.length) := by
  cases hb : idxFrom b P 0 with
  | none =>
    simp only [Option.map_none']
    apply idxFrom_eq_none
    intro q hq hocc
    rcases hspan q hocc with hfits | hge
    · exact idxFrom_none hnone hP hq (occAt_append_inv_left hocc hfits)
    · have hsh : OccAt b P (q - a.length) := by
        have : a.length + (q - a.length) = q := by omega
        exact occAt_append_shift.mp (this ▸ hocc)
      exact idxFrom_none hb hP (Nat.zero_le _) hsh
  | some r =>
    simp only [Option.map_some']
    obtain ⟨hocc, _⟩ := idxFrom_occ hb
    have hglob : OccAt (a ++ b) P (r + a.length) := by
      rw [show r + a.length = a.length + r by omega]
      exact occAt_append_shift.mpr hocc
    apply idxFrom_eq_some hglob (by omega) (occAt_ne_nil_fit hglob hP)
    intro q hq1 hq2 hoccq
    rcases hspan q hoccq with hfits | hge
    · exact idxFrom_none hnone hP hq1 (occAt_append_inv_left hoccq hfits)
    · have hsh : OccAt b P (q - a.length) := by
        have : a.length + (q - a.length) = q := by omega
        exact occAt_append_shift.mp (this ▸ hoccq)
      exact idxFrom_min hb (Nat.zero_le _) (by omega) hsh

theorem extractRange_append {a y : Chars} {n : Nat} :
    extractRange (a ++ y) a.length (a.length + n) = y.take n := by
  unfold extractRange
  rw [show a.length = a.length + 0 by omega, List.drop_append]
  simp

theorem extractRange_append_full {a y b : Chars} :
    extractRange (a ++ (y ++ b)) a.length (a.length + y.length) = y := by
  rw [extractRange_append]
  rw [List.take_append_of_le_length (Nat.le_refl _)]
  simp

theorem braceRunAux_le {s : Chars} {i r : Nat} {d : Int} {q e : Bool}
    (h : braceRunAux s i d q e = some r) : i < r ∧ r ≤ i + s.length := by
  induction s generalizing i d q e with
  | nil => simp [braceRunAux] at h
  | cons c cs ih =>
    unfold braceRunAux at h
    cases hstep : braceStepF c d q e with
    | stop =>
      rw [hstep] at h
      simp only [Option.some.injEq] at h
      simp [List.length_cons]
      omega
    | go d2 s2 e2 =>
      rw [hstep] at h
      have := ih h
      simp [List.length_cons]
      omega

/-- A successful local brace scan is unaffected by extending the text. -/

theorem braceRunAux_append {s u : Chars} {i r : Nat} {d : Int} {q e : Bool}
    (h : braceRunAux s i d q e = some r) :
    braceRunAux (s ++ u) i d q e = some r := by
  induction s generalizing i d q e with
  | nil => simp [braceRunAux] at h
  | cons c cs ih =>
    cases hstep : braceStepF c d q e with
    | stop =>
      simp only [braceRunAux, hstep] at h
      simp only [List.cons_append, braceRunAux, hstep]
      exact h
    | go d2 s2 e2 =>
      simp only [braceRunAux, hstep] at h
      simp only [List.cons_append, braceRunAux, hstep]
      exact ih h

theorem braceRunAux_add {s : Chars} {i c : Nat} {d : Int} {q e : Bool} :
    braceRunAux s (i + c) d q e = (braceRunAux s i d q e).map (· + c) := by
  induction s generalizing i d q e with
  | nil => simp [braceRunAux]
  | cons x xs ih =>
    cases hstep : braceStepF x d q e with
    | stop => simp [braceRunAux, hstep, show i + c + 1 = i + 1 + c by omega]
    | go d2 s2 e2 =>
      simp only [braceRunAux, hstep]
      rw [show i + c + 1 = i + 1 + c by omega]
      exact ih

/-! ## Claim C2: balanced-brace end detection and quoted braces -/

theorem braceRunAux_cons_go {c : Char} {cs : Chars} {i : Nat} {d d2 : Int}
    {q e q2 e2 : Bool} (h : braceStepF c d q e = .go d2 q2 e2) :
    braceRunAux (c :: cs) i d q e = braceRunAux cs (i + 1) d2 q2 e2 := by
  simp [braceRunAux, h]

/-- Inside a quoted string (state `depth 1, inString, no escape`), every
character other than `"` and `\\` leaves the scan state unchanged; the scan
of the remainder `p ++ "\"\x7d"` therefore ends two characters past `p`. -/

theorem braceRun_inString (p : Chars) (hq : '"' ∉ p) (hb : '\\' ∉ p) (i : Nat) :
    braceRunAux (p ++ ['"', '}']) i 1 true false = some (i + p.length + 2) := by
  induction p generalizing i with
  | nil => simp [braceRunAux, braceStepF]
  | cons c cs ih =>
    simp only [List.mem_cons, not_or] at hq hb
    have hq1 : c ≠ '"' := fun h => hq.1 h.symm
    have hb1 : c ≠ '\\' := fun h => hb.1 h.symm
    have hstep : braceStepF c 1 true false = .go 1 true false := by
      unfold braceStepF
      simp [hq1, hb1]
    simp only [List.cons_append, braceRunAux, hstep]
    have h2 := ih hq.2 hb.2 (i + 1)
    simp only [List.append_eq] at h2 ⊢
    rw [h2]
    congr 1
    simp only [List.length_cons]
    omega

/-- C2: For a payload containing braces inside a quoted string value, the
Scanner's balanced-brace end detection returns the correct end offset: for
every prompt `p` free of quotes and backslashes, scanning
`{"prompt":"` ++ p ++ `"}` from depth 0 ends exactly one past the final
brace (position `p.length + 13`), not at a brace quoted inside `p`; in
particular the scanner parses `[IMG:GEN:{"prompt":"a {cat} sitting"}]` as a
single tag whose `fullMatch` is the whole marker. -/

theorem braceScan_quoted_braces :
    (∀ p : Chars, '"' ∉ p → '\\' ∉ p →
      braceRunAux ("\x7b\"prompt\":\"".data ++ p ++ "\"\x7d".data) 0 0 false false =
        some (p.length + 13)) ∧
    (parseImageTags (fun _ => .threw)
        ("[IMG:GEN:\x7b\"prompt\":\"a \x7bcat\x7d sitting\"\x7d]".data) {}).tags.map
      (fun tg => (tg.fullMatch, tg.index)) =
      [(("[IMG:GEN:\x7b\"prompt\":\"a \x7bcat\x7d sitting\"\x7d]".data : Chars), 0)] := by
  constructor
  · intro p hq hb
    have hsplit : ("\x7b\"prompt\":\"".data : Chars) ++ p ++ ("\"\x7d".data : Chars) =
        '{' :: '"' :: 'p' :: 'r' :: 'o' :: 'm' :: 'p' :: 't' :: '"' :: ':' :: '"' ::
          (p ++ ['"', '}']) := by
      rw [List.append_assoc]
      rfl
    rw [hsplit]
    rw [braceRunAux_cons_go (show braceStepF '{' 0 false false = .go 1 false false by decide),
      braceRunAux_cons_go (show braceStepF '"' 1 false false = .go 1 true false by decide),
      braceRunAux_cons_go (show braceStepF 'p' 1 true false = .go 1 true false by decide),
      braceRunAux_cons_go (show braceStepF 'r' 1 true false = .go 1 true false by decide),
      braceRunAux_cons_go (show braceStepF 'o' 1 true false = .go 1 true false by decide),
      braceRunAux_cons_go (show braceStepF 'm' 1 true false = .go 1 true false by decide),
      braceRunAux_cons_go (show braceStepF 'p' 1 true false = .go 1 true false by decide),
      braceRunAux_cons_go (show braceStepF 't' 1 true false = .go 1 true false by decide),
      braceRunAux_cons_go (show braceStepF '"' 1 true false = .go 1 false false by decide),
      braceRunAux_cons_go (show braceStepF ':' 1 false false = .go 1 false false by decide),
      braceRunAux_cons_go (show braceStepF '"' 1 false false = .go 1 true false by decide)]
    rw [braceRun_inString p hq hb 11]
    congr 1
    omega
  · decide

/-- Witness for C2 at the spec's own example prompt `a {cat} sitting`. -/

theorem braceScan_quoted_braces_witness :
    braceRunAux ("\x7b\"prompt\":\"".data ++ "a \x7bcat\x7d sitting".data ++ "\"\x7d".data)
      0 0 false false = some 28 :=
  (braceScan_quoted_braces.1 ("a \x7bcat\x7d sitting".data) (by decide)
      (by decide)).trans (by decide)

/-- C3 counterexample: with existence checking requested and a probe that
throws, the tag IS selected for generation (the scan returns it), because
`checkFileExists` maps a thrown fetch to `false` ("not found") and
`parseImageTags` regenerates on `!exists`. The claim says a throwing probe
must leave the tag untouched (zero tags). -/

theorem probe_throw_regenerates :
    (parseImageTags (fun _ => .threw) pathTagText { checkExistence := true }).tags.length = 1 ∧
    (parseImageTags (fun _ => .threw) pathTagText { checkExistence := true }).probes =
      ["/img/abcd.png".data] := by
  decide

/-- C3 (amended): under `mode=normal` with existence checking, a markup tag
with a resolved path source needs generation if and only if the probe does
not report a clean "found": both a clean not-found (`ok false`) and a
thrown probe (`threw`, which `checkFileExists` resolves to `false`) select
the tag for regeneration; only `ok true` leaves it untouched. -/

theorem existence_policy_resolved_path (r : Probe) :
    (parseImageTags (fun _ => r) pathTagText { checkExistence := true }).tags.length =
      (match r with
        | .ok true => 0
        | .ok false => 1
        | .threw => 1) := by
  cases r with
  | ok b => cases b <;> decide
  | threw => decide

/-! ## Claim C8: purity of the Scanner -/

theorem markupPush_shape (t : Chars) (a b c d : Nat) (hp : Bool) (sv : Chars)
    (probes : List Chars) :
    ∃ tg, markupPush t a b c d hp sv probes = .next probes tg d := by
  unfold markupPush
  cases jsonParse (entityNorm (extractRange t b c)) with
  | none => exact ⟨none, rfl⟩
  | some data => exact ⟨_, rfl⟩

theorem markupDecide_shape (probe : Chars → Probe) (opts : ScanOpts) (t : Chars)
    (a b c d : Nat) :
    ∃ ps tg, markupDecide probe opts t a b c d = .next ps tg d := by
  unfold markupDecide
  dsimp only []
  repeat' split
  all_goals first
    | exact ⟨_, _, rfl⟩
    | (obtain ⟨tg, htg⟩ := markupPush_shape t a b c d _ _ _; exact ⟨_, tg, htg⟩)

theorem markupDecide_no_probe_eq (probe probe2 : Chars → Probe) (opts : ScanOpts)
    (h : opts.checkExistence = false) (t : Chars) (a b c d : Nat) :
    markupDecide probe opts t a b c d = markupDecide probe2 opts t a b c d := by
  simp [markupDecide, h]

theorem markupDecide_no_probe_trace (probe : Chars → Probe) (opts : ScanOpts)
    (h : opts.checkExistence = false) (t : Chars) (a b c d : Nat)
    (ps : List Chars) (tg : Option IigTag) (pos2 : Nat)
    (hx : markupDecide probe opts t a b c d = .next ps tg pos2) : ps = [] := by
  unfold markupDecide at hx
  rw [h] at hx
  dsimp only [] at hx
  simp only [Bool.and_false, Bool.false_eq_true, if_false] at hx
  repeat' split at hx
  all_goals first
    | (cases hx; rfl)
    | (obtain ⟨tg2, ht2⟩ := markupPush_shape t a b c d
        (!((findSrc (extractRange t a d)).getD []).isEmpty &&
          decide (((findSrc (extractRange t a d)).getD []).headD ' ' = '/') &&
          decide (((findSrc (extractRange t a d)).getD []).length > 5))
        ((findSrc (extractRange t a d)).getD []) [];
       rw [ht2] at hx; cases hx; rfl)

theorem markupIter_no_probe_eq (probe probe2 : Chars → Probe) (opts : ScanOpts)
    (h : opts.checkExistence = false) (t : Chars) (pos : Nat) :
    markupIter probe opts t pos = markupIter probe2 opts t pos := by
  unfold markupIter
  cases hidx : idxFrom t mAnchor pos with
  | none => simp [hidx]
  | some markerPos =>
    simp only [hidx]
    cases hc : markupCandidate t markerPos with
    | none => simp
    | some q =>
      obtain ⟨a, b, c, d⟩ := q
      simp only []
      exact markupDecide_no_probe_eq probe probe2 opts h t a b c d

theorem markupIter_no_probe_trace (probe : Chars → Probe) (opts : ScanOpts)
    (h : opts.checkExistence = false) (t : Chars) (pos : Nat)
    (ps : List Chars) (tg : Option IigTag) (pos2 : Nat)
    (hx : markupIter probe opts t pos = .next ps tg pos2) : ps = [] := by
  unfold markupIter at hx
  split at hx
  · exact absurd hx (by simp)
  · split at hx
    · cases hx; rfl
    · exact markupDecide_no_probe_trace probe opts h t _ _ _ _ ps tg pos2 hx

theorem markupLoop_no_probe (probe probe2 : Chars → Probe) (opts : ScanOpts)
    (h : opts.checkExistence = false) (t : Chars) :
    ∀ f pos, markupLoop probe opts t f pos = markupLoop probe2 opts t f pos ∧
      (markupLoop probe opts t f pos).probes = [] := by
  intro f
  induction f with
  | zero => exact fun pos => ⟨rfl, rfl⟩
  | succ f ih =>
    intro pos
    unfold markupLoop
    rw [← markupIter_no_probe_eq probe probe2 opts h t pos]
    cases hit : markupIter probe opts t pos with
    | done => exact ⟨rfl, rfl⟩
    | next ps tg pos2 =>
      have hps := markupIter_no_probe_trace probe opts h t pos ps tg pos2 hit
      obtain ⟨he, hp⟩ := ih pos2
      subst hps
      refine ⟨?_, ?_⟩
      · simp only [he]
      · simpa using hp

/-- C8 counterexample: with `checkExistence = true` the Scanner is NOT a
pure function of text and options alone and DOES perform network calls:
on the same text and options, two different probe outcomes produce
different tag sequences, and the HEAD probe is invoked. -/

theorem scanner_not_pure_counterexample :
    (parseImageTags (fun _ => .ok true) pathTagText { checkExistence := true }).tags ≠
      (parseImageTags (fun _ => .ok false) pathTagText { checkExistence := true }).tags ∧
    (parseImageTags (fun _ => .ok true) pathTagText { checkExistence := true }).probes ≠
      [] := by
  constructor
  · intro hcon
    have hlen := congrArg List.length hcon
    rw [show (parseImageTags (fun _ => .ok true) pathTagText
          { checkExistence := true }).tags.length = 0 from by decide,
      show (parseImageTags (fun _ => .ok false) pathTagText
          { checkExistence := true }).tags.length = 1 from by decide] at hlen
    exact absurd hlen (by decide)
  · decide

/-- C8 (amended): the Scanner is a pure function of its input text, its
options and the existence-probe responses; when `checkExistence` is not
requested (as in the plain scan contract) it performs no probe call at all
and its output does not depend on the probe. DOM access does not occur in
any case (the embedding takes no DOM state). -/

theorem scanner_pure_without_existence (probe probe2 : Chars → Probe) (t : Chars)
    (opts : ScanOpts) (h : opts.checkExistence = false) :
    parseImageTags probe t opts = parseImageTags probe2 t opts ∧
    (parseImageTags probe t opts).probes = [] := by
  obtain ⟨he, hp⟩ := markupLoop_no_probe probe probe2 opts h t (t.length + 1) 0
  constructor
  · unfold parseImageTags
    rw [he]
  · unfold parseImageTags
    exact hp

/-- Witness for C8 (amended) on a concrete text and two distinct probes. -/

theorem scanner_pure_without_existence_witness :
    parseImageTags (fun _ => .ok true) pathTagText {} =
      parseImageTags (fun _ => .ok false) pathTagText {} ∧
    (parseImageTags (fun _ => .ok true) pathTagText {}).probes = [] :=
  scanner_pure_without_existence (fun _ => .ok true) (fun _ => .ok false)
    pathTagText {} rfl

/-- C9 counterexample: a single scan returns two tags occupying overlapping
ranges — both start at index 0 and both have non-empty `fullMatch` (the
second one spans the entire text, containing the first). -/

theorem scanner_overlapping_tags :
    (parseImageTags (fun _ => .threw) overlapText {}).tags.map IigTag.index = [0, 0] ∧
    (parseImageTags (fun _ => .threw) overlapText {}).tags.all
      (fun tg => !tg.fullMatch.isEmpty) = true := by
  decide

/-! ## Claim C10: scanner termination -/

theorem legacyPush_shape (t : Chars) (m b c : Nat) :
    ∃ tg, legacyPush t m b c = .next [] tg (c + 1) := by
  unfold legacyPush
  cases jsonParse (legacyNorm (extractRange t b c)) with
  | none => exact ⟨none, rfl⟩
  | some data => exact ⟨_, rfl⟩

theorem markupCandidate_bounds {t : Chars} {markerPos a b c d : Nat}
    (h : markupCandidate t markerPos = some (a, b, c, d)) :
    markerPos < d ∧ d ≤ t.length ∧ markerPos + mAnchor.length ≤ b ∧ b < c ∧
      c ≤ t.length ∧ c < d ∧ b ≤ markerPos + mAnchor.length + 10 ∧
      a ≤ markerPos ∧ markerPos - a ≤ 500 := by
  unfold markupCandidate at h
  split at h
  · exact absurd h (by simp)
  · rename_i imgStart hls
    split at h
    · exact absurd h (by simp)
    · rename_i hdist
      split at h
      · exact absurd h (by simp)
      · rename_i jsonStart hj
        split at h
        · exact absurd h (by simp)
        · rename_i hjb
          split at h
          · exact absurd h (by simp)
          · rename_i jsonEnd hbr
            split at h
            · exact absurd h (by simp)
            · rename_i gtPos hg
              simp only [Option.some.injEq, Prod.mk.injEq] at h
              obtain ⟨h1, h2, h3, h4⟩ := h
              subst h1
              subst h2
              subst h3
              subst h4
              obtain ⟨hjo, hjge⟩ := idxFrom_occ hj
              have hjfit := occAt_ne_nil_fit hjo (by decide)
              obtain ⟨hbl, hbu⟩ := braceRunAux_le hbr
              rw [List.length_drop] at hbu
              obtain ⟨hgo, hgge⟩ := idxFrom_occ hg
              have hgfit := occAt_ne_nil_fit hgo (by decide)
              obtain ⟨hlo, hlle, hlmax⟩ := lastIdxLeAux_spec hls
              simp only [List.length_cons, List.length_nil] at hjfit hgfit
              push_neg at hdist hjb
              refine ⟨?_, ?_, ?_, ?_, ?_, ?_, ?_, ?_, ?_⟩ <;> omega

theorem markupIter_advances (probe : Chars → Probe) (opts : ScanOpts) (t : Chars)
    (pos : Nat) (ps : List Chars) (tg : Option IigTag) (pos2 : Nat)
    (hx : markupIter probe opts t pos = .next ps tg pos2) :
    pos < pos2 ∧ pos2 ≤ t.length := by
  unfold markupIter at hx
  split at hx
  · exact absurd hx (by simp)
  · rename_i markerPos hm
    obtain ⟨hmo, hmge⟩ := idxFrom_occ hm
    have hmfit := occAt_ne_nil_fit hmo (by decide)
    have hma : mAnchor.length = 21 := by decide
    split at hx
    · cases hx
      omega
    · rename_i a b c d hcand
      obtain ⟨ps2, tg2, hde⟩ := markupDecide_shape probe opts t a b c d
      rw [hde] at hx
      cases hx
      have hb := markupCandidate_bounds hcand
      omega

theorem legacyIter_advances (t : Chars) (pos : Nat) (ps : List Chars)
    (tg : Option IigTag) (pos2 : Nat)
    (hx : legacyIter t pos = .next ps tg pos2) :
    pos < pos2 ∧ pos2 ≤ t.length := by
  unfold legacyIter at hx
  split at hx
  · exact absurd hx (by simp)
  · rename_i markerIndex hm
    obtain ⟨hmo, hmge⟩ := idxFrom_occ hm
    have hmfit := occAt_ne_nil_fit hmo (by decide)
    have hla : lAnchor.length = 9 := by decide
    split at hx
    · cases hx
      omega
    · rename_i jsonEnd hbr
      obtain ⟨hbl, hbu⟩ := braceRunAux_le hbr
      rw [List.length_drop] at hbu
      split at hx
      · cases hx
        omega
      · rename_i hbracket
        have hjlt : jsonEnd < t.length := by
          by_contra hge
          push_neg at hge
          have hnil : t.drop jsonEnd = [] := List.drop_eq_nil_of_le hge
          rw [hnil] at hbracket
          simp at hbracket
        obtain ⟨tg2, hlp⟩ :=
          legacyPush_shape t markerIndex (markerIndex + lAnchor.length) jsonEnd
        rw [hlp] at hx
        cases hx
        omega

theorem idxFrom_past_end {t P : Chars} {s : Nat} (hs : t.length ≤ s)
    (hP : P ≠ []) : idxFrom t P s = none := by
  unfold idxFrom
  rw [List.drop_eq_nil_of_le hs]
  unfold idxFromAux
  rcases P with _ | _
  · exact absurd rfl hP
  · simp [List.isEmpty]

theorem markupIter_past_end (probe : Chars → Probe) (opts : ScanOpts) (t : Chars)
    {pos : Nat} (hs : t.length ≤ pos) : markupIter probe opts t pos = .done := by
  unfold markupIter
  rw [idxFrom_past_end hs (by decide)]

theorem legacyIter_past_end (t : Chars) {pos : Nat} (hs : t.length ≤ pos) :
    legacyIter t pos = .done := by
  unfold legacyIter
  rw [idxFrom_past_end hs (by decide)]

theorem markupLoop_fuel (probe : Chars → Probe) (opts : ScanOpts) (t : Chars) :
    ∀ f1 f2 pos, t.length + 1 - pos ≤ f1 → t.length + 1 - pos ≤ f2 →
      markupLoop probe opts t f1 pos = markupLoop probe opts t f2 pos := by
  intro f1
  induction f1 with
  | zero =>
    intro f2 pos h1 h2
    have hp : t.length ≤ pos := by omega
    cases f2 with
    | zero => rfl
    | succ g =>
      unfold markupLoop
      rw [markupIter_past_end probe opts t hp]
  | succ f ih =>
    intro f2 pos h1 h2
    cases f2 with
    | zero =>
      have hp : t.length ≤ pos := by omega
      unfold markupLoop
      rw [markupIter_past_end probe opts t hp]
    | succ g =>
      unfold markupLoop
      cases hit : markupIter probe opts t pos with
      | done => rfl
      | next ps tg pos2 =>
        obtain ⟨hlt, hle⟩ := markupIter_advances probe opts t pos ps tg pos2 hit
        dsimp only []
        rw [ih g pos2 (by omega) (by omega)]

theorem legacyLoop_fuel (t : Chars) :
    ∀ f1 f2 pos, t.length + 1 - pos ≤ f1 → t.length + 1 - pos ≤ f2 →
      legacyLoop t f1 pos = legacyLoop t f2 pos := by
  intro f1
  induction f1 with
  | zero =>
    intro f2 pos h1 h2
    have hp : t.length ≤ pos := by omega
    cases f2 with
    | zero => rfl
    | succ g =>
      unfold legacyLoop
      rw [legacyIter_past_end t hp]
  | succ f ih =>
    intro f2 pos h1 h2
    cases f2 with
    | zero =>
      have hp : t.length ≤ pos := by omega
      unfold legacyLoop
      rw [legacyIter_past_end t hp]
    | succ g =>
      unfold legacyLoop
      cases hit : legacyIter t pos with
      | done => rfl
      | next ps tg pos2 =>
        obtain ⟨hlt, hle⟩ := legacyIter_advances t pos ps tg pos2 hit
        dsimp only []
        rw [ih g pos2 (by omega) (by omega)]

/-- C10: the Scanner terminates on every finite input — each iteration of
the markup-family and legacy-family loops either exits (`.done`) or
strictly advances its search position while staying within the text, so the
`t.length + 1` iteration budget used by `parseImageTags` is exact: any
larger fuel yields the same result on every text (including texts with
missing or distant opening braces, unbalanced braces, missing `>` or `]`,
and malformed instruction JSON, all of which take a skip step). -/

theorem scanner_terminates (probe : Chars → Probe) (opts : ScanOpts) (t : Chars) :
    (∀ pos ps tg pos2, markupIter probe opts t pos = .next ps tg pos2 →
      pos < pos2 ∧ pos2 ≤ t.length) ∧
    (∀ pos ps tg pos2, legacyIter t pos = .next ps tg pos2 →
      pos < pos2 ∧ pos2 ≤ t.length) ∧
    (∀ f, t.length + 1 ≤ f →
      markupLoop probe opts t f 0 = markupLoop probe opts t (t.length + 1) 0 ∧
      legacyLoop t f 0 = legacyLoop t (t.length + 1) 0) :=
  ⟨fun pos ps tg pos2 hx => markupIter_advances probe opts t pos ps tg pos2 hx,
   fun pos ps tg pos2 hx => legacyIter_advances t pos ps tg pos2 hx,
   fun f hf =>
    ⟨markupLoop_fuel probe opts t f (t.length + 1) 0 (by omega) (by omega),
     legacyLoop_fuel t f (t.length + 1) 0 (by omega) (by omega)⟩⟩

/-- Witness for C10: surplus fuel does not change the scan on a concrete
malformed-and-wellformed mixed text. -/

theorem scanner_terminates_witness :
    markupLoop (fun _ => .threw) {} pathTagText (pathTagText.length + 2) 0 =
      markupLoop (fun _ => .threw) {} pathTagText (pathTagText.length + 1) 0 ∧
    legacyLoop pathTagText (pathTagText.length + 2) 0 =
      legacyLoop pathTagText (pathTagText.length + 1) 0 :=
  (scanner_terminates (fun _ => .threw) {} pathTagText).2.2
    (pathTagText.length + 2) (Nat.le_succ _)

theorem backoffsOf_retryTrace (bd : Nat) : ∀ j base,
    backoffsOf (retryTrace bd base j) =
      (List.range j).map (fun i => bd * 2 ^ (base + i)) := by
  intro j
  induction j with
  | zero =>
    intro base
    simp [retryTrace, backoffsOf]
  | succ j ih =>
    intro base
    have hg : ∀ tr, backoffsOf (.genStatus base :: tr) = backoffsOf tr := fun tr => rfl
    have hb : ∀ tr, backoffsOf (.backoff (bd * 2 ^ base) :: tr) =
        bd * 2 ^ base :: backoffsOf tr := fun tr => rfl
    rw [retryTrace, hg, hb, ih (base + 1), List.range_succ_eq_map]
    simp only [List.map_cons, Nat.add_zero, List.map_map]
    congr 1
    apply List.map_congr_left
    intro a _
    simp only [Function.comp]
    have he : base + 1 + a = base + a.succ := by omega
    rw [he]

theorem retryLoop_spec (retr : Chars → Bool) (api : Nat → Except Chars Chars)
    (bd : Nat) : ∀ remaining base, ∃ j, j ≤ remaining ∧
      (∀ i, i < j → ∃ e, api (base + i) = .error e ∧ retr e = true) ∧
      (retryLoop retr api bd remaining base).1 = api (base + j) ∧
      (retryLoop retr api bd remaining base).2 = retryTrace bd base j ∧
      (∀ e, api (base + j) = .error e → retr e = false ∨ j = remaining) := by
  intro remaining
  induction remaining with
  | zero =>
    intro base
    refine ⟨0, Nat.le_refl _, fun i hi => absurd hi (by omega), ?_, ?_,
      fun e he => Or.inr rfl⟩
    · show (retryLoop retr api bd 0 base).1 = api base
      unfold retryLoop
      cases h2 : api base <;> rfl
    · show (retryLoop retr api bd 0 base).2 = retryTrace bd base 0
      unfold retryLoop
      cases h2 : api base <;> simp [retryTrace]
  | succ rem ih =>
    intro base
    cases hapi : api base with
    | ok v =>
      refine ⟨0, by omega, fun i hi => absurd hi (by omega), ?_, ?_, ?_⟩
      · show (retryLoop retr api bd (rem + 1) base).1 = api base
        unfold retryLoop
        rw [hapi]
      · show (retryLoop retr api bd (rem + 1) base).2 = retryTrace bd base 0
        unfold retryLoop
        rw [hapi]
        simp [retryTrace]
      · intro e he
        have hcon : Except.ok v = Except.error e := hapi.symm.trans he
        exact absurd hcon (by simp)
    | error e =>
      cases hre : retr e with
      | false =>
        refine ⟨0, by omega, fun i hi => absurd hi (by omega), ?_, ?_, ?_⟩
        · show (retryLoop retr api bd (rem + 1) base).1 = api base
          unfold retryLoop
          rw [hapi]
          dsimp only []
          simp [hre, hapi]
        · show (retryLoop retr api bd (rem + 1) base).2 = retryTrace bd base 0
          unfold retryLoop
          rw [hapi]
          dsimp only []
          simp [hre, retryTrace]
        · intro e2 he2
          have hcon : Except.error e = Except.error e2 := hapi.symm.trans he2
          simp only [Except.error.injEq] at hcon
          subst hcon
          exact Or.inl hre
      | true =>
        obtain ⟨j, hjle, hjerr, hjfst, hjtr, hjout⟩ := ih (base + 1)
        refine ⟨j + 1, by omega, ?_, ?_, ?_, ?_⟩
        · intro i hi
          cases i with
          | zero => exact ⟨e, hapi, hre⟩
          | succ k =>
            have hk := hjerr k (by omega)
            rwa [show base + 1 + k = base + (k + 1) by omega] at hk
        · rw [show base + (j + 1) = base + 1 + j by omega]
          unfold retryLoop
          rw [hapi]
          dsimp only []
          rw [hre]
          simpa using hjfst
        · unfold retryLoop
          rw [hapi]
          dsimp only []
          rw [hre]
          rw [show retryTrace bd base (j + 1) =
            .genStatus base :: .backoff (bd * 2 ^ base) :: retryTrace bd (base + 1) j
            from rfl]
          simpa using hjtr
        · intro e2 he2
          rw [show base + (j + 1) = base + 1 + j by omega] at he2
          rcases hjout e2 he2 with hl | hr
          · exact Or.inl hl
          · exact Or.inr (by omega)

/-- C4: `generateImageWithRetry` retries only failures classified as
transient (messages containing `429`/`502`/`503`/`504` or a
`timeout`/`network` signature); every attempt before the settled one failed
with a transient error; each retry notifies the status callback with a wait
of `baseDelay * 2 ^ attempt` before sleeping (the whole callback trace is
characterised); the settled outcome is the last attempt's result unchanged,
and an error settles only when it is non-transient or retries are
exhausted. In particular, with `maxRetries = 2`, a 503 `ApiError` on the
first two attempts and success on the third, the success is returned and
the callback observes exactly the two increasing backoffs 1000 and 2000. -/

theorem generateImageWithRetry_policy :
    (∀ (api : Nat → Except Chars Chars) (maxRetries baseDelay : Nat),
      ∃ j, j ≤ maxRetries ∧
        (∀ i, i < j → ∃ e, api i = .error e ∧ isRetryable e = true) ∧
        (generateImageWithRetry api maxRetries baseDelay).1 = api j ∧
        (generateImageWithRetry api maxRetries baseDelay).2 =
          retryTrace baseDelay 0 j ∧
        backoffsOf (generateImageWithRetry api maxRetries baseDelay).2 =
          (List.range j).map (fun i => baseDelay * 2 ^ i) ∧
        (∀ e, api j = .error e → isRetryable e = false ∨ j = maxRetries)) ∧
    generateImageWithRetry api503 2 1000 =
      (.ok ("data:image/png;base64,QUJD".data),
        [.genStatus 0, .backoff 1000, .genStatus 1, .backoff 2000, .genStatus 2]) ∧
    backoffsOf (generateImageWithRetry api503 2 1000).2 = [1000, 2000] := by
  refine ⟨?_, by rfl, by rfl⟩
  intro api maxRetries baseDelay
  obtain ⟨j, hjle, hjerr, hjfst, hjtr, hjout⟩ :=
    retryLoop_spec isRetryable api baseDelay maxRetries 0
  refine ⟨j, hjle, ?_, ?_, hjtr, ?_, ?_⟩
  · intro i hi
    have := hjerr i hi
    rwa [Nat.zero_add] at this
  · rw [show (0 : Nat) + j = j from Nat.zero_add j] at hjfst
    exact hjfst
  · show backoffsOf (retryLoop isRetryable api baseDelay maxRetries 0).2 =
      (List.range j).map (fun i => baseDelay * 2 ^ i)
    rw [hjtr, backoffsOf_retryTrace]
    apply List.map_congr_left
    intro a _
    rw [Nat.zero_add]
  · intro e he
    have := hjout e (by rwa [Nat.zero_add])
    exact this

/-! ## Claim C5: reconciliation of an already-resolved message is a no-op -/

/-- C5: when no tag of the message needs generation under the Existence
Policy (the scan returns no tags — a fully resolved message), running
reconciliation performs no DOM mutation and no chat-save call: the world is
returned unchanged, and running it twice changes nothing either. -/

theorem reconcile_already_resolved_noop (probe : Chars → Probe)
    (gen : Nat → Except Chars Chars) (saveImg : Chars → Chars)
    (w : World) (messageId : Nat)
    (h : ∀ m, w.chat.get? messageId = some m →
      (parseImageTags probe m.mes { checkExistence := true }).tags = []) :
    processMessageTags probe gen saveImg w messageId = w ∧
    processMessageTags probe gen saveImg
      (processMessageTags probe gen saveImg w messageId) messageId = w := by
  have h1 : processMessageTags probe gen saveImg w messageId = w := by
    unfold processMessageTags
    split
    · rfl
    · split
      · rfl
      · split
        · rfl
        · rename_i m hm
          split
          · rfl
          · have hempty := h m hm
            dsimp only []
            rw [hempty]
            simp
  exact ⟨h1, by rw [h1, h1]⟩

/-- Witness for C5 on a concrete fully-resolved message. -/

theorem reconcile_already_resolved_noop_witness :
    processMessageTags (fun _ => .ok true) (fun _ => .error []) (fun s => s)
      resolvedWorld 0 = resolvedWorld ∧
    processMessageTags (fun _ => .ok true) (fun _ => .error []) (fun s => s)
      (processMessageTags (fun _ => .ok true) (fun _ => .error []) (fun s => s)
        resolvedWorld 0) 0 = resolvedWorld :=
  reconcile_already_resolved_noop (fun _ => .ok true) (fun _ => .error [])
    (fun s => s) resolvedWorld 0
    (by
      intro m hm
      rw [show resolvedWorld.chat.get? 0 = some resolvedMsg from rfl] at hm
      cases hm
      exact List.length_eq_zero.mp (by decide))

/-- C6 counterexample: a user-triggered forced regenerate for an identifier
that is currently in the processing set is NOT dropped —
`regenerateMessageImages` never consults the gate and proceeds all the way
to the chat-save call, mutating the world. -/

theorem regen_not_gated_counterexample :
    regenerateMessageImages (fun _ => .ok true) (fun _ => .error ("boom".data))
      (fun _ => "/p.png".data) inFlightWorld 0 ≠ inFlightWorld := by
  intro hcon
  have hs := congrArg World.saveCalls hcon
  rw [show (regenerateMessageImages (fun _ => .ok true)
      (fun _ => .error ("boom".data)) (fun _ => "/p.png".data)
      inFlightWorld 0).saveCalls = 1 from by decide] at hs
  exact absurd hs (by decide)

/-- C6 (amended): while reconciliation for a message identifier is in
flight, a new automatic trigger (`processMessageTags`) for the same
identifier is dropped, not queued; but the user-triggered forced regenerate
(`regenerateMessageImages`) is NOT blocked by the gate — it proceeds (and
performs its save call) even when the identifier is in the processing set. -/

theorem processing_gate_drops_auto_not_regen :
    (∀ (probe : Chars → Probe) (gen : Nat → Except Chars Chars)
       (saveImg : Chars → Chars) (w : World) (messageId : Nat),
      messageId ∈ w.processing →
      processMessageTags probe gen saveImg w messageId = w) ∧
    (regenerateMessageImages (fun _ => .ok true) (fun _ => .error ("boom".data))
      (fun _ => "/p.png".data) inFlightWorld 0).saveCalls =
        inFlightWorld.saveCalls + 1 := by
  constructor
  · intro probe gen saveImg w messageId hmem
    unfold processMessageTags
    by_cases he : (!w.enabled) = true
    · rw [if_pos he]
    · rw [if_neg he, if_pos hmem]
  · decide

/-- Witness for C6 (amended): the automatic trigger is dropped on the
concrete in-flight world. -/

theorem processing_gate_drops_auto_not_regen_witness :
    processMessageTags (fun _ => .ok true) (fun _ => .error ("boom".data))
      (fun _ => "/p.png".data) inFlightWorld 0 = inFlightWorld :=
  processing_gate_drops_auto_not_regen.1 (fun _ => .ok true)
    (fun _ => .error ("boom".data)) (fun _ => "/p.png".data) inFlightWorld 0
    (by decide)

theorem geminiParsePart000_no_inline (dl : Chars → Option Chars)
    (r : GResponse) (hne : r.candidates.isEmpty = false)
    (hni : findInline ((r.candidates.headD default).content.getD []) = none) :
    geminiParsePart000 dl r =
      match firstTextPart ((r.candidates.headD default).content.getD []) with
      | some tp =>
        match textImgMatch (tp.text.getD []) with
        | some imgUrl =>
          match dl imgUrl with
          | some b64 => .ok ("data:image/jpeg;base64,".data ++ b64)
          | none => .ok imgUrl
        | none =>
          match refusalReason (r.candidates.headD default).finishReason with
          | some fr => .error (refusalMsg fr ((tp.text.getD []).take 100))
          | none => .error (noImageTextMsg ((tp.text.getD []).take 100))
      | none => .error noImageNoTextMsg := by
  unfold geminiParsePart000
  rw [hne, hni]
  rfl

/-- C7, counterexample: the claim is stated of `generateImageGemini`, but on
the `src/index.js` copy (lines 459-480) there is no text fallback at all —
on a response whose first candidate carries a markdown-image link in a text
part and no inline data, it returns the flat
`'No image found in Gemini response'` failure, even though the text part
matches the markdown-image pattern; only the `src/unnamed/part_000` copy
falls back (here downloading the link and inlining it). -/

theorem gemini_no_fallback_index :
    geminiParseIndex gRespMd =
      .error ("No image found in Gemini response".data) ∧
    firstTextPart ((gRespMd.candidates.headD default).content.getD []) =
      some ⟨none, none, some ("![x](http://a/b.png)".data)⟩ ∧
    textImgMatch ("![x](http://a/b.png)".data) =
      some ("http://a/b.png".data) ∧
    geminiParsePart000 (fun _ => some ("QUJD".data)) gRespMd =
      .ok ("data:image/jpeg;base64,QUJD".data) :=
  ⟨rfl, rfl, rfl, rfl⟩

/-- C7 (amended, for the `part_000` copy): when a success response has
candidates but no inline image data in the first candidate's parts under
either field spelling, `generateImageGemini` falls back to the first truthy
text part: a markdown-image or bare-URL capture is downloaded and inlined
(or returned as a remote URL when the download fails); failing that it
returns the refusal-excerpt error when `finishReason` signals a non-STOP
refusal, the text-without-image error otherwise, and the generic
no-image-no-text error when no text part exists — and these three failure
messages are pairwise distinct for every reason and excerpt. -/

theorem gemini_fallback_part000 (dl : Chars → Option Chars) (r : GResponse)
    (hne : r.candidates.isEmpty = false)
    (hni : findInline ((r.candidates.headD default).content.getD []) = none) :
    (∀ tp,
      firstTextPart ((r.candidates.headD default).content.getD []) =
        some tp →
      (∀ u, textImgMatch (tp.text.getD []) = some u →
        geminiParsePart000 dl r =
          match dl u with
          | some b64 => .ok ("data:image/jpeg;base64,".data ++ b64)
          | none => .ok u) ∧
      (textImgMatch (tp.text.getD []) = none →
        (∀ fr,
          refusalReason (r.candidates.headD default).finishReason =
            some fr →
          geminiParsePart000 dl r =
            .error (refusalMsg fr ((tp.text.getD []).take 100))) ∧
        (refusalReason (r.candidates.headD default).finishReason = none →
          geminiParsePart000 dl r =
            .error (noImageTextMsg ((tp.text.getD []).take 100))))) ∧
    (firstTextPart ((r.candidates.headD default).content.getD []) = none →
      geminiParsePart000 dl r = .error noImageNoTextMsg) ∧
    (∀ fr e1 e2, refusalMsg fr e1 ≠ noImageTextMsg e2 ∧
      refusalMsg fr e1 ≠ noImageNoTextMsg ∧
      noImageTextMsg e2 ≠ noImageNoTextMsg) := by
  refine ⟨?_, ?_, ?_⟩
  · intro tp htp
    constructor
    · intro u hu
      simp only [geminiParsePart000_no_inline dl r hne hni, htp, hu]
    · intro ht
      constructor
      · intro fr hfr
        simp only [geminiParsePart000_no_inline dl r hne hni, htp, ht, hfr]
      · intro hfr
        simp only [geminiParsePart000_no_inline dl r hne hni, htp, ht, hfr]
  · intro hft
    simp only [geminiParsePart000_no_inline dl r hne hni, hft]
  · intro fr e1 e2
    have h1 : List.headD (refusalMsg fr e1) ' ' = 'О' := rfl
    have h2 : List.headD (noImageTextMsg e2) ' ' = 'М' := rfl
    have h3 : List.headD noImageNoTextMsg ' ' = 'В' := rfl
    refine ⟨fun h => ?_, fun h => ?_, fun h => ?_⟩
    · have hh : List.headD (refusalMsg fr e1) ' ' =
          List.headD (noImageTextMsg e2) ' ' := by rw [h]
      rw [h1, h2] at hh
      exact absurd hh (by decide)
    · have hh : List.headD (refusalMsg fr e1) ' ' =
          List.headD noImageNoTextMsg ' ' := by rw [h]
      rw [h1, h3] at hh
      exact absurd hh (by decide)
    · have hh : List.headD (noImageTextMsg e2) ' ' =
          List.headD noImageNoTextMsg ' ' := by rw [h]
      rw [h2, h3] at hh
      exact absurd hh (by decide)

/-- Witness for C7 (amended): on the concrete refusal-text response with an
always-failing download oracle, the theorem yields the refusal-excerpt
error. -/

theorem gemini_fallback_part000_witness :
    geminiParsePart000 (fun _ => none) gRespWit =
      .error (refusalMsg ("SAFETY".data) (("hello".data).take 100)) := by
  have h := gemini_fallback_part000 (fun _ => none) gRespWit rfl rfl
  exact ((h.1 ⟨none, none, some ("hello".data)⟩ rfl).2 rfl).1
    ("SAFETY".data) rfl

/-! ## C9 (amended): fullMatch slices and legacy disjointness -/

theorem extractRange_slice (t : Chars) (a b : Nat) :
    extractRange t a (a + (extractRange t a b).length) = extractRange t a b := by
  unfold extractRange
  rw [Nat.add_sub_cancel_left, List.length_take, ← List.take_take,
    List.take_length]

theorem markupPush_tag {t : Chars} {a b c d : Nat} {hp : Bool} {sv : Chars}
    {ps ps2 : List Chars} {tag : IigTag} {p2 : Nat}
    (hx : markupPush t a b c d hp sv ps = .next ps2 (some tag) p2) :
    tag.fullMatch = extractRange t a d ∧ tag.index = a ∧
      tag.isNewFormat = true := by
  unfold markupPush at hx
  split at hx
  · cases hx
    exact ⟨rfl, rfl, rfl⟩
  · simp at hx

theorem markupDecide_tag {probe : Chars → Probe} {opts : ScanOpts} {t : Chars}
    {a b c d : Nat} {ps : List Chars} {tag : IigTag} {p2 : Nat}
    (hx : markupDecide probe opts t a b c d = .next ps (some tag) p2) :
    tag.fullMatch = extractRange t a d ∧ tag.index = a ∧
      tag.isNewFormat = true := by
  unfold markupDecide at hx
  dsimp only [] at hx
  repeat' split at hx
  all_goals first
    | exact markupPush_tag hx
    | simp at hx

theorem markupIter_tag {probe : Chars → Probe} {opts : ScanOpts} {t : Chars}
    {pos : Nat} {ps : List Chars} {tag : IigTag} {p2 : Nat}
    (hx : markupIter probe opts t pos = .next ps (some tag) p2) :
    tag.fullMatch =
      extractRange t tag.index (tag.index + tag.fullMatch.length) ∧
    tag.isNewFormat = true := by
  unfold markupIter at hx
  split at hx
  · exact absurd hx (by simp)
  · split at hx
    · simp at hx
    · obtain ⟨hf, hi, hn⟩ := markupDecide_tag hx
      refine ⟨?_, hn⟩
      rw [hi, hf]
      exact (extractRange_slice t _ _).symm

theorem legacyPush_tag {t : Chars} {m b c : Nat} {ps : List Chars}
    {tag : IigTag} {p2 : Nat}
    (hx : legacyPush t m b c = .next ps (some tag) p2) :
    tag.fullMatch = extractRange t m (c + 1) ∧ tag.index = m ∧
      tag.isNewFormat = false ∧ p2 = c + 1 := by
  unfold legacyPush at hx
  split at hx
  · cases hx
    exact ⟨rfl, rfl, rfl, rfl⟩
  · simp at hx

theorem legacyIter_tag {t : Chars} {pos : Nat} {ps : List Chars}
    {tag : IigTag} {p2 : Nat}
    (hx : legacyIter t pos = .next ps (some tag) p2) :
    tag.fullMatch =
      extractRange t tag.index (tag.index + tag.fullMatch.length) ∧
    tag.isNewFormat = false ∧ pos ≤ tag.index ∧ tag.index < p2 ∧
      tag.index + tag.fullMatch.length ≤ p2 := by
  unfold legacyIter at hx
  split at hx
  · exact absurd hx (by simp)
  · rename_i markerIndex hm
    obtain ⟨hmo, hmge⟩ := idxFrom_occ hm
    split at hx
    · simp at hx
    · rename_i jsonEnd hbr
      obtain ⟨hbl, hbu⟩ := braceRunAux_le hbr
      split at hx
      · simp at hx
      · obtain ⟨hf, hi, hn, hp2⟩ := legacyPush_tag hx
        have hsl : tag.fullMatch =
            extractRange t tag.index (tag.index + tag.fullMatch.length) := by
          rw [hi, hf]
          exact (extractRange_slice t _ _).symm
        have hlen : tag.fullMatch.length ≤ jsonEnd + 1 - markerIndex := by
          rw [hf]
          unfold extractRange
          rw [List.length_take]
          exact Nat.min_le_left _ _
        have hla : lAnchor.length = 9 := by decide
        refine ⟨hsl, hn, ?_, ?_, ?_⟩ <;> omega

theorem markupLoop_tags (probe : Chars → Probe) (opts : ScanOpts) (t : Chars) :
    ∀ f pos tag, tag ∈ (markupLoop probe opts t f pos).tags →
      tag.fullMatch =
        extractRange t tag.index (tag.index + tag.fullMatch.length) ∧
      tag.isNewFormat = true := by
  intro f
  induction f with
  | zero =>
    intro pos tag hmem
    simp [markupLoop] at hmem
  | succ f ih =>
    intro pos tag hmem
    unfold markupLoop at hmem
    cases hit : markupIter probe opts t pos with
    | done =>
      rw [hit] at hmem
      simp at hmem
    | next ps tg pos2 =>
      rw [hit] at hmem
      dsimp only [] at hmem
      rcases List.mem_append.mp hmem with hl | hr
      · cases tg with
        | none => simp at hl
        | some tg0 =>
          have : tag = tg0 := by simpa using hl
          subst this
          exact markupIter_tag hit
      · exact ih pos2 tag hr

theorem legacyLoop_tags (t : Chars) :
    ∀ f pos tag, tag ∈ legacyLoop t f pos →
      tag.fullMatch =
        extractRange t tag.index (tag.index + tag.fullMatch.length) ∧
      tag.isNewFormat = false ∧ pos ≤ tag.index := by
  intro f
  induction f with
  | zero =>
    intro pos tag hmem
    simp [legacyLoop] at hmem
  | succ f ih =>
    intro pos tag hmem
    unfold legacyLoop at hmem
    cases hit : legacyIter t pos with
    | done =>
      rw [hit] at hmem
      simp at hmem
    | next ps tg pos2 =>
      rw [hit] at hmem
      dsimp only [] at hmem
      obtain ⟨hadv, _⟩ := legacyIter_advances t pos ps tg pos2 hit
      rcases List.mem_append.mp hmem with hl | hr
      · cases tg with
        | none => simp at hl
        | some tg0 =>
          have : tag = tg0 := by simpa using hl
          subst this
          obtain ⟨hsl, hn, hge, _, _⟩ := legacyIter_tag hit
          exact ⟨hsl, hn, hge⟩
      · obtain ⟨hsl, hn, hge⟩ := ih pos2 tag hr
        exact ⟨hsl, hn, by omega⟩

theorem legacyLoop_pairwise (t : Chars) :
    ∀ f pos, (legacyLoop t f pos).Pairwise
      (fun a b => a.index < b.index ∧
        a.index + a.fullMatch.length ≤ b.index) := by
  intro f
  induction f with
  | zero =>
    intro pos
    simp [legacyLoop]
  | succ f ih =>
    intro pos
    unfold legacyLoop
    cases hit : legacyIter t pos with
    | done => simp
    | next ps tg pos2 =>
      dsimp only []
      rw [List.pairwise_append]
      refine ⟨?_, ih pos2, ?_⟩
      · cases tg with
        | none => simp
        | some tg0 => simp
      · intro a ha b hb
        cases tg with
        | none => simp at ha
        | some tg0 =>
          have : a = tg0 := by simpa using ha
          subst this
          obtain ⟨_, _, _, hlt, hle⟩ := legacyIter_tag hit
          obtain ⟨_, _, hbge⟩ := legacyLoop_tags t f pos2 b hb
          exact ⟨by omega, by omega⟩

/-- C9 (amended): every tag returned by the Scanner carries as `fullMatch`
the contiguous slice of the input text starting at its `index` (of its own
length), and the legacy-family tags of one scan (those with
`isNewFormat = false`) are in strictly increasing position order and
pairwise non-overlapping — each ends at or before the next one's start. The
markup family enjoys no such disjointness (see the overlap counterexample):
its unbounded-backward `lastIndexOf('<img')` lookback can re-capture an
earlier element. -/

theorem scanner_slices_and_legacy_disjoint (probe : Chars → Probe)
    (t : Chars) (opts : ScanOpts) :
    (∀ tag ∈ (parseImageTags probe t opts).tags,
      tag.fullMatch =
        extractRange t tag.index (tag.index + tag.fullMatch.length)) ∧
    ((parseImageTags probe t opts).tags.filter
        (fun tag => !tag.isNewFormat)).Pairwise
      (fun a b => a.index < b.index ∧
        a.index + a.fullMatch.length ≤ b.index) := by
  constructor
  · intro tag hmem
    simp only [parseImageTags] at hmem
    rcases List.mem_append.mp hmem with hm | hl
    · exact (markupLoop_tags probe opts t _ 0 tag hm).1
    · exact (legacyLoop_tags t _ 0 tag hl).1
  · simp only [parseImageTags]
    rw [List.filter_append]
    have hm0 : (markupLoop probe opts t (t.length + 1) 0).tags.filter
        (fun tag => !tag.isNewFormat) = [] := by
      rw [List.filter_eq_nil_iff]
      intro a ha
      have := (markupLoop_tags probe opts t _ 0 a ha).2
      simp [this]
    have hl1 : (legacyLoop t (t.length + 1) 0).filter
        (fun tag => !tag.isNewFormat) = legacyLoop t (t.length + 1) 0 := by
      rw [List.filter_eq_self]
      intro a ha
      have := (legacyLoop_tags t _ 0 a ha).2.1
      simp [this]
    rw [hm0, hl1]
    exact legacyLoop_pairwise t _ 0

/-! ## C1: exact output on a well-formed marker decomposition -/

theorem prefix_drop {A X : Chars} (h : A <+: X) (q : Nat) :
    A.drop q <+: X.drop q := by
  obtain ⟨r, hr⟩ := h
  by_cases hq : q ≤ A.length
  · exact ⟨r, by rw [← hr, List.drop_append_of_le_length hq]⟩
  · have hnil : A.drop q = [] := List.drop_eq_nil_of_le (by omega)
    rw [hnil]
    simp

/-- An occurrence inside an occurring block is an occurrence in the text. -/

theorem occAt_trans {t A B : Chars} {p q : Nat}
    (h1 : OccAt t A p) (h2 : OccAt A B q) : OccAt t B (p + q) := by
  have h3 : B <+: (t.drop p).drop q := h2.trans (prefix_drop h1 q)
  rw [List.drop_drop] at h3
  exact h3

/-- The text slice at an occurrence is the occurring block itself. -/

theorem occAt_extract {t A : Chars} {p : Nat} (h : OccAt t A p) :
    extractRange t p (p + A.length) = A := by
  unfold extractRange
  rw [Nat.add_sub_cancel_left]
  exact (List.prefix_iff_eq_take.mp h).symm

theorem drop_of_occAt {t A : Chars} {p : Nat} (h : OccAt t A p) {k : Nat}
    (hk : k ≤ A.length) : ∃ r, t.drop (p + k) = A.drop k ++ r := by
  obtain ⟨r, hr⟩ := h
  refine ⟨r, ?_⟩
  have h1 : t.drop (p + k) = (t.drop p).drop k := by
    rw [List.drop_drop, Nat.add_comm]
  rw [h1, ← hr, List.drop_append_of_le_length hk]

theorem mRender_length (j : Chars) : (mRender j).length = j.length + 27 := by
  have h26 : mPre.length = 26 := rfl
  simp only [mRender, List.length_append, List.length_cons, List.length_nil,
    h26]
  omega

theorem lRender_length (j : Chars) : (lRender j).length = j.length + 10 := by
  have h9 : lAnchor.length = 9 := rfl
  simp only [lRender, List.length_append, List.length_cons, List.length_nil,
    h9]
  omega

theorem mRender_drop5 (j : Chars) :
    (mRender j).drop 5 = mAnchor ++ j ++ ['>'] := by
  have h26 : mPre.length = 26 := rfl
  show ((mPre ++ j) ++ ['>']).drop 5 = (mAnchor ++ j) ++ ['>']
  rw [List.drop_append_of_le_length (by rw [List.length_append]; omega),
    List.drop_append_of_le_length (by omega)]
  rfl

theorem mRender_drop26 (j : Chars) : (mRender j).drop 26 = j ++ ['>'] := by
  have h26 : mPre.length = 26 := rfl
  show ((mPre ++ j) ++ ['>']).drop 26 = j ++ ['>']
  rw [List.drop_append_of_le_length (by rw [List.length_append]; omega),
    List.drop_append_of_le_length (by omega)]
  have hd : mPre.drop 26 = [] := rfl
  rw [hd]
  rfl

theorem mPre_no_lt : ∀ k, k < 6 → 1 ≤ k → mPre[k]? ≠ some '<' := by decide

/-- No `<img` occurrence strictly between a well-formed markup marker's
start and its attribute anchor: the five characters after the element's
`<` are `img d`, none of which is `<`. -/

theorem mRender_no_imgOpen_near {t j : Chars} {p q : Nat}
    (hocc : OccAt t (mRender j) p) (hq1 : p < q) (hq2 : q ≤ p + 5) :
    ¬ OccAt t imgOpen q := by
  intro ho
  have h26 : mPre.length = 26 := rfl
  have hlenR := mRender_length j
  obtain ⟨r2, hr2⟩ := ho
  have hh : (t.drop q).headD ' ' = '<' := by rw [← hr2]; rfl
  obtain ⟨r, hr⟩ := drop_of_occAt hocc (show q - p ≤ (mRender j).length by omega)
  have hpq : p + (q - p) = q := by omega
  rw [hpq] at hr
  have hklt : q - p < mPre.length := by omega
  have hdr : (mRender j).drop (q - p) =
      ((mPre[q - p] :: mPre.drop (q - p + 1)) ++ j) ++ ['>'] := by
    show ((mPre ++ j) ++ ['>']).drop (q - p) = _
    rw [List.drop_append_of_le_length (by rw [List.length_append]; omega),
      List.drop_append_of_le_length (by omega),
      List.drop_eq_getElem_cons hklt]
  rw [hdr] at hr
  simp only [List.cons_append] at hr
  rw [hr] at hh
  simp only [List.headD_cons] at hh
  exact mPre_no_lt (q - p) (by omega) (by omega)
    (by rw [List.getElem?_eq_getElem hklt, hh])

theorem lRender_drop9 (j : Chars) : (lRender j).drop 9 = j ++ [']'] := by
  have h9 : lAnchor.length = 9 := rfl
  show ((lAnchor ++ j) ++ [']']).drop 9 = j ++ [']']
  rw [List.drop_append_of_le_length (by rw [List.length_append]; omega),
    List.drop_append_of_le_length (by omega)]
  have hd : lAnchor.drop 9 = [] := rfl
  rw [hd]
  rfl

/-- On a well-formed markup marker at `p`, the candidate geometry resolved
from the anchor at `p + 5` is exactly the marker's own: element start `p`,
payload at `p + 26`, payload end `p + 26 + |j|`, element end one past the
closing `>`. -/

theorem markupCandidate_at_marker {t j : Chars} {p : Nat}
    (hocc : OccAt t (mRender j) p) (hok : markupOk j = true) :
    markupCandidate t (p + 5) =
      some (p, p + 26, p + 26 + j.length, p + 26 + j.length + 1) := by
  simp only [markupOk, Bool.and_eq_true, beq_iff_eq,
    Option.isSome_iff_exists, Option.isNone_iff_eq_none] at hok
  obtain ⟨⟨⟨hhead, hbrace⟩, hparse⟩, hsrc⟩ := hok
  have hlenR := mRender_length j
  have hfitR := occAt_ne_nil_fit hocc (by simp [mRender, mPre])
  have hjne : j ≠ [] := by
    intro he
    rw [he] at hbrace
    simp [braceRunAux] at hbrace
  have hjl : 1 ≤ j.length := by
    cases j with
    | nil => exact absurd rfl hjne
    | cons c j2 => simp
  have h21 : mAnchor.length = 21 := rfl
  have hio : OccAt t imgOpen p := by
    have h1 : imgOpen <+: mRender j := by
      show imgOpen <+: (mPre ++ j) ++ ['>']
      rw [List.append_assoc]
      exact (show imgOpen <+: mPre by decide).trans (List.prefix_append _ _)
    exact h1.trans hocc
  have hlast : lastIdxLe t imgOpen (p + 5) = some p :=
    lastIdxLe_eq_some hio (by omega)
      (fun q hq1 hq2 => mRender_no_imgOpen_near hocc hq1 hq2)
  obtain ⟨r, hr⟩ := drop_of_occAt hocc
    (show 26 ≤ (mRender j).length by omega)
  rw [mRender_drop26] at hr
  obtain ⟨c, j2, hj⟩ : ∃ c j2, j = c :: j2 := by
    cases j with
    | nil => exact absurd rfl hjne
    | cons c j2 => exact ⟨c, j2, rfl⟩
  have hc : c = '{' := by
    rw [hj] at hhead
    simpa using hhead
  have hbr : OccAt t ['{'] (p + 26) := by
    show ['{'] <+: t.drop (p + 26)
    rw [hr, hj, hc]
    simp
  have hbrIdx : idxFrom t ['{'] (p + 5 + mAnchor.length) = some (p + 26) := by
    have he : p + 5 + mAnchor.length = p + 26 := by rw [h21]
    rw [he]
    exact idxFrom_eq_some hbr (Nat.le_refl _)
      (by simp only [List.length_cons, List.length_nil]; omega)
      (fun q hq1 hq2 => absurd hq1 (by omega))
  have hbrun : braceRunAux (t.drop (p + 26)) (p + 26) 0 false false =
      some (p + 26 + j.length) := by
    rw [hr, List.append_assoc,
      show p + 26 + j.length = j.length + (p + 26) by omega]
    apply braceRunAux_append
    have h0 := @braceRunAux_add j 0 (p + 26) 0 false false
    rw [Nat.zero_add] at h0
    rw [h0, hbrace]
    rfl
  have hdgt : t.drop (p + 26 + j.length) = '>' :: r := by
    have h1 : t.drop (p + 26 + j.length) = (t.drop (p + 26)).drop j.length := by
      rw [List.drop_drop]
    rw [h1, hr, List.append_assoc, List.drop_left]
    rfl
  have hgt : idxFrom t ['>'] (p + 26 + j.length) =
      some (p + 26 + j.length) := by
    refine idxFrom_eq_some ?_ (Nat.le_refl _)
      (by simp only [List.length_cons, List.length_nil]; omega)
      (fun q hq1 hq2 => absurd hq1 (by omega))
    show ['>'] <+: t.drop (p + 26 + j.length)
    rw [hdgt]
    simp
  unfold markupCandidate
  rw [hlast]
  dsimp only []
  rw [if_neg (by omega)]
  rw [hbrIdx]
  dsimp only []
  rw [if_neg (by simp only [h21]; omega)]
  rw [hbrun]
  dsimp only []
  rw [hgt]

/-- When the captured element has no `src` attribute, the needs-generation
decision always pushes (empty `srcValue` counts as needing generation in
every option combination) and performs no probe. -/

theorem markupDecide_no_src (probe : Chars → Probe) (opts : ScanOpts)
    (t : Chars) (a b c d : Nat)
    (hsrc : findSrc (extractRange t a d) = none) :
    markupDecide probe opts t a b c d = markupPush t a b c d false [] [] := by
  have e1 : jsIncludes [] ("error.svg".data) = false := rfl
  have e2 : jsIncludes [] ("[IMG:GEN]".data) = false := rfl
  have e3 : jsIncludes [] ("[IMG:".data) = false := rfl
  by_cases hf : opts.forceAll
  · simp [markupDecide, hsrc, hf, e1, e2, e3]
  · simp [markupDecide, hsrc, hf, e1, e2, e3]

/-- One markup-loop iteration started at or before a well-formed marker's
anchor, with no other anchor in between, pushes exactly the marker's tag,
probes nothing, and resumes one past the element. -/

theorem markupIter_at_marker (probe : Chars → Probe) (opts : ScanOpts)
    {t j : Chars} {p s : Nat}
    (hocc : OccAt t (mRender j) p) (hok : markupOk j = true)
    (hs : s ≤ p + 5)
    (hmin : ∀ q, s ≤ q → q < p + 5 → ¬ OccAt t mAnchor q) :
    markupIter probe opts t s =
      .next [] (some (mkMarkupTag j p)) (p + 26 + j.length + 1) := by
  have hcand := markupCandidate_at_marker hocc hok
  simp only [markupOk, Bool.and_eq_true, beq_iff_eq,
    Option.isSome_iff_exists, Option.isNone_iff_eq_none] at hok
  obtain ⟨⟨⟨hhead, hbrace⟩, hparse⟩, hsrc⟩ := hok
  obtain ⟨data, hparsed⟩ := hparse
  have hlenR := mRender_length j
  have hfitR := occAt_ne_nil_fit hocc (by simp [mRender, mPre])
  have h21 : mAnchor.length = 21 := rfl
  have hA : OccAt t mAnchor (p + 5) := by
    have h1 : OccAt (mRender j) mAnchor 5 := by
      show mAnchor <+: (mRender j).drop 5
      rw [mRender_drop5, List.append_assoc]
      exact List.prefix_append _ _
    exact occAt_trans hocc h1
  have hidx : idxFrom t mAnchor s = some (p + 5) :=
    idxFrom_eq_some hA hs (by omega) hmin
  have hfull : extractRange t p (p + 26 + j.length + 1) = mRender j := by
    rw [show p + 26 + j.length + 1 = p + (mRender j).length by omega]
    exact occAt_extract hocc
  obtain ⟨r, hr⟩ := drop_of_occAt hocc
    (show 26 ≤ (mRender j).length by omega)
  rw [mRender_drop26] at hr
  have hjson : extractRange t (p + 26) (p + 26 + j.length) = j := by
    unfold extractRange
    rw [show p + 26 + j.length - (p + 26) = j.length by omega, hr,
      List.append_assoc, List.take_left]
  unfold markupIter
  rw [hidx]
  dsimp only []
  rw [hcand]
  dsimp only []
  rw [markupDecide_no_src probe opts t p (p + 26) (p + 26 + j.length)
    (p + 26 + j.length + 1) (by rw [hfull]; exact hsrc)]
  unfold markupPush
  rw [hjson, hparsed]
  dsimp only []
  rw [hfull]
  unfold mkMarkupTag
  rw [hparsed]
  rfl

/-- One legacy-loop iteration started at or before a well-formed legacy
marker, with no other `[IMG:GEN:` in between, pushes exactly the marker's
tag and resumes one past the closing bracket. -/

theorem legacyIter_at_marker {t j : Chars} {p s : Nat}
    (hocc : OccAt t (lRender j) p) (hok : legacyOk j = true)
    (hs : s ≤ p)
    (hmin : ∀ q, s ≤ q → q < p → ¬ OccAt t lAnchor q) :
    legacyIter t s = .next [] (some (mkLegacyTag j p)) (p + 9 + j.length + 1) := by
  simp only [legacyOk, Bool.and_eq_true, beq_iff_eq,
    Option.isSome_iff_exists] at hok
  obtain ⟨hbrace, hparse⟩ := hok
  obtain ⟨data, hparsed⟩ := hparse
  have hlenR := lRender_length j
  have hfitR := occAt_ne_nil_fit hocc (by simp [lRender, lAnchor])
  have h9 : lAnchor.length = 9 := rfl
  have hA : OccAt t lAnchor p := by
    have h1 : lAnchor <+: lRender j := by
      show lAnchor <+: (lAnchor ++ j) ++ [']']
      rw [List.append_assoc]
      exact List.prefix_append _ _
    exact h1.trans hocc
  have hidx : idxFrom t lAnchor s = some p :=
    idxFrom_eq_some hA hs (by omega) hmin
  obtain ⟨r, hr⟩ := drop_of_occAt hocc
    (show 9 ≤ (lRender j).length by omega)
  rw [lRender_drop9] at hr
  have hbrun : braceRunAux (t.drop (p + 9)) (p + 9) 0 false false =
      some (p + 9 + j.length) := by
    rw [hr, List.append_assoc,
      show p + 9 + j.length = j.length + (p + 9) by omega]
    apply braceRunAux_append
    have h0 := @braceRunAux_add j 0 (p + 9) 0 false false
    rw [Nat.zero_add] at h0
    rw [h0, hbrace]
    rfl
  have hdrb : t.drop (p + 9 + j.length) = ']' :: r := by
    have h1 : t.drop (p + 9 + j.length) = (t.drop (p + 9)).drop j.length := by
      rw [List.drop_drop]
    rw [h1, hr, List.append_assoc, List.drop_left]
    rfl
  have hjson : extractRange t (p + 9) (p + 9 + j.length) = j := by
    unfold extractRange
    rw [show p + 9 + j.length - (p + 9) = j.length by omega, hr,
      List.append_assoc, List.take_left]
  have hfull : extractRange t p (p + 9 + j.length + 1) = lRender j := by
    rw [show p + 9 + j.length + 1 = p + (lRender j).length by omega]
    exact occAt_extract hocc
  unfold legacyIter
  rw [hidx]
  dsimp only []
  rw [h9, hbrun]
  dsimp only []
  rw [if_neg (by rw [hdrb]; simp)]
  unfold legacyPush
  rw [hjson, hparsed]
  dsimp only []
  rw [hfull]
  unfold mkLegacyTag
  rw [hparsed]
  rfl

/-- The markup pass over a suffix of well-formed markers: starting at or
before the first remaining anchor, it returns exactly the markers' tags in
text order and performs no probe. -/

theorem markupLoop_run (probe : Chars → Probe) (opts : ScanOpts) (t : Chars) :
    ∀ (rest : List (Nat × Chars)) (s : Nat),
      (∀ pj ∈ rest,
        OccAt t (mRender pj.2) pj.1 ∧ markupOk pj.2 = true ∧ s ≤ pj.1) →
      rest.Pairwise (fun a b => a.1 + (mRender a.2).length ≤ b.1) →
      (∀ q, s ≤ q → q < t.length →
        (OccAt t mAnchor q ↔ ∃ pj ∈ rest, q = pj.1 + 5)) →
      markupLoop probe opts t (t.length + 1) s =
        ⟨rest.map (fun pj => mkMarkupTag pj.2 pj.1), []⟩ := by
  intro rest
  induction rest with
  | nil =>
    intro s hm hp hex
    have hnone : idxFrom t mAnchor s = none := by
      apply idxFrom_eq_none
      intro q hq hocc
      by_cases hql : q < t.length
      · obtain ⟨pj, hpj, _⟩ := (hex q hq hql).mp hocc
        simp at hpj
      · have hfit := occAt_ne_nil_fit hocc (by decide)
        have h21 : mAnchor.length = 21 := rfl
        omega
    have hiter : markupIter probe opts t s = .done := by
      unfold markupIter
      rw [hnone]
    unfold markupLoop
    rw [hiter]
    rfl
  | cons hd tl ih =>
    intro s hm hp hex
    obtain ⟨p, j⟩ := hd
    obtain ⟨hocc, hok, hsle⟩ := hm (p, j) (by simp)
    dsimp only [] at hocc hok hsle
    have hlenR := mRender_length j
    have hfitR := occAt_ne_nil_fit hocc (by simp [mRender, mPre])
    have h21 : mAnchor.length = 21 := rfl
    have hptl := List.pairwise_cons.mp hp
    dsimp only [] at hptl
    have hmin : ∀ q, s ≤ q → q < p + 5 → ¬ OccAt t mAnchor q := by
      intro q hq1 hq2 hocc2
      have hqlt : q < t.length := by omega
      obtain ⟨pj, hpj, hqe⟩ := (hex q hq1 hqlt).mp hocc2
      rcases List.mem_cons.mp hpj with he | htl
      · rw [he] at hqe
        omega
      · have hb := hptl.1 pj htl
        have hlb := mRender_length pj.2
        omega
    have hiter := markupIter_at_marker probe opts hocc hok (by omega) hmin
    unfold markupLoop
    rw [hiter]
    dsimp only []
    have hpos2 : p + 26 + j.length + 1 ≤ t.length := by omega
    rw [markupLoop_fuel probe opts t t.length (t.length + 1)
      (p + 26 + j.length + 1) (by omega) (by omega)]
    rw [ih (p + 26 + j.length + 1) ?ha ?hb ?hc]
    case ha =>
      intro pj hpj
      obtain ⟨ho2, hk2, _⟩ := hm pj (List.mem_cons_of_mem _ hpj)
      have hb := hptl.1 pj hpj
      exact ⟨ho2, hk2, by omega⟩
    case hb => exact hptl.2
    case hc =>
      intro q hq hql
      rw [hex q (by omega) hql]
      constructor
      · rintro ⟨pj, hpj, hqe⟩
        rcases List.mem_cons.mp hpj with he | htl
        · rw [he] at hqe
          omega
        · exact ⟨pj, htl, hqe⟩
      · rintro ⟨pj, hpj, hqe⟩
        exact ⟨pj, List.mem_cons_of_mem _ hpj, hqe⟩
    simp

/-- The legacy pass over a suffix of well-formed legacy markers. -/

theorem legacyLoop_run (t : Chars) :
    ∀ (rest : List (Nat × Chars)) (s : Nat),
      (∀ pj ∈ rest,
        OccAt t (lRender pj.2) pj.1 ∧ legacyOk pj.2 = true ∧ s ≤ pj.1) →
      rest.Pairwise (fun a b => a.1 + (lRender a.2).length ≤ b.1) →
      (∀ q, s ≤ q → q < t.length →
        (OccAt t lAnchor q ↔ ∃ pj ∈ rest, q = pj.1)) →
      legacyLoop t (t.length + 1) s =
        rest.map (fun pj => mkLegacyTag pj.2 pj.1) := by
  intro rest
  induction rest with
  | nil =>
    intro s hm hp hex
    have hnone : idxFrom t lAnchor s = none := by
      apply idxFrom_eq_none
      intro q hq hocc
      by_cases hql : q < t.length
      · obtain ⟨pj, hpj, _⟩ := (hex q hq hql).mp hocc
        simp at hpj
      · have hfit := occAt_ne_nil_fit hocc (by decide)
        have h9 : lAnchor.length = 9 := rfl
        omega
    have hiter : legacyIter t s = .done := by
      unfold legacyIter
      rw [hnone]
    unfold legacyLoop
    rw [hiter]
    rfl
  | cons hd tl ih =>
    intro s hm hp hex
    obtain ⟨p, j⟩ := hd
    obtain ⟨hocc, hok, hsle⟩ := hm (p, j) (by simp)
    dsimp only [] at hocc hok hsle
    have hlenR := lRender_length j
    have hfitR := occAt_ne_nil_fit hocc (by simp [lRender, lAnchor])
    have h9 : lAnchor.length = 9 := rfl
    have hptl := List.pairwise_cons.mp hp
    dsimp only [] at hptl
    have hmin : ∀ q, s ≤ q → q < p → ¬ OccAt t lAnchor q := by
      intro q hq1 hq2 hocc2
      have hqlt : q < t.length := by omega
      obtain ⟨pj, hpj, hqe⟩ := (hex q hq1 hqlt).mp hocc2
      rcases List.mem_cons.mp hpj with he | htl
      · rw [he] at hqe
        omega
      · have hb := hptl.1 pj htl
        have hlb := lRender_length pj.2
        omega
    have hiter := legacyIter_at_marker hocc hok hsle hmin
    unfold legacyLoop
    rw [hiter]
    dsimp only []
    have hpos2 : p + 9 + j.length + 1 ≤ t.length := by omega
    rw [legacyLoop_fuel t t.length (t.length + 1)
      (p + 9 + j.length + 1) (by omega) (by omega)]
    rw [ih (p + 9 + j.length + 1) ?ha ?hb ?hc]
    case ha =>
      intro pj hpj
      obtain ⟨ho2, hk2, _⟩ := hm pj (List.mem_cons_of_mem _ hpj)
      have hb := hptl.1 pj hpj
      exact ⟨ho2, hk2, by omega⟩
    case hb => exact hptl.2
    case hc =>
      intro q hq hql
      rw [hex q (by omega) hql]
      constructor
      · rintro ⟨pj, hpj, hqe⟩
        rcases List.mem_cons.mp hpj with he | htl
        · rw [he] at hqe
          omega
        · exact ⟨pj, htl, hqe⟩
      · rintro ⟨pj, hpj, hqe⟩
        exact ⟨pj, List.mem_cons_of_mem _ hpj, hqe⟩
    simp

/-- C1: on any text decomposing into well-formed, non-overlapping
instruction markers (markup family `ms`, legacy family `ls`, each list in
text order, each marker's render occurring at its position, the attribute
anchor occurring exactly at the markup markers and `[IMG:GEN:` exactly at
the legacy markers), the Scanner returns exactly `|ms| + |ls|` tags — the
markup-pass tags followed by the legacy-pass tags, matching the marker
lists one for one — each tag's `fullMatch` being the marker's render, which
is character-for-character the source substring of the text at its index;
and it performs no existence probe on such a text. -/

theorem scanner_exact_on_decomposition (probe : Chars → Probe)
    (opts : ScanOpts) (t : Chars) (ms ls : List (Nat × Chars))
    (hm : ∀ pj ∈ ms, OccAt t (mRender pj.2) pj.1 ∧ markupOk pj.2 = true)
    (hl : ∀ pj ∈ ls, OccAt t (lRender pj.2) pj.1 ∧ legacyOk pj.2 = true)
    (hmp : ms.Pairwise (fun a b => a.1 + (mRender a.2).length ≤ b.1))
    (hlp : ls.Pairwise (fun a b => a.1 + (lRender a.2).length ≤ b.1))
    (hmex : ∀ q, q < t.length →
      (OccAt t mAnchor q ↔ ∃ pj ∈ ms, q = pj.1 + 5))
    (hlex : ∀ q, q < t.length →
      (OccAt t lAnchor q ↔ ∃ pj ∈ ls, q = pj.1)) :
    (parseImageTags probe t opts).tags =
      ms.map (fun pj => mkMarkupTag pj.2 pj.1) ++
        ls.map (fun pj => mkLegacyTag pj.2 pj.1) ∧
    (parseImageTags probe t opts).tags.length = ms.length + ls.length ∧
    (parseImageTags probe t opts).probes = [] ∧
    (∀ pj ∈ ms,
      extractRange t pj.1 (pj.1 + (mRender pj.2).length) = mRender pj.2) ∧
    (∀ pj ∈ ls,
      extractRange t pj.1 (pj.1 + (lRender pj.2).length) = lRender pj.2) := by
  have hmrun := markupLoop_run probe opts t ms 0
    (fun pj hpj => ⟨(hm pj hpj).1, (hm pj hpj).2, Nat.zero_le _⟩) hmp
    (fun q hq hql => hmex q hql)
  have hlrun := legacyLoop_run t ls 0
    (fun pj hpj => ⟨(hl pj hpj).1, (hl pj hpj).2, Nat.zero_le _⟩) hlp
    (fun q hq hql => hlex q hql)
  refine ⟨?_, ?_, ?_, ?_, ?_⟩
  · simp only [parseImageTags, hmrun, hlrun]
  · simp only [parseImageTags, hmrun, hlrun, List.length_append,
      List.length_map]
  · simp only [parseImageTags, hmrun]
  · intro pj hpj
    exact occAt_extract (hm pj hpj).1
  · intro pj hpj
    exact occAt_extract (hl pj hpj).1

/-- Witness for C1: the two-marker fixture, scanned with existence checking
requested and a throwing probe — one markup tag and one legacy tag, no
probe calls. -/

theorem scanner_exact_on_decomposition_witness :
    (parseImageTags (fun _ => Probe.threw) c1Text ⟨true, false⟩).tags =
      c1Ms.map (fun pj => mkMarkupTag pj.2 pj.1) ++
        c1Ls.map (fun pj => mkLegacyTag pj.2 pj.1) ∧
    (parseImageTags (fun _ => Probe.threw) c1Text ⟨true, false⟩).tags.length =
      c1Ms.length + c1Ls.length ∧
    (parseImageTags (fun _ => Probe.threw) c1Text ⟨true, false⟩).probes =
      [] ∧
    (∀ pj ∈ c1Ms,
      extractRange c1Text pj.1 (pj.1 + (mRender pj.2).length) =
        mRender pj.2) ∧
    (∀ pj ∈ c1Ls,
      extractRange c1Text pj.1 (pj.1 + (lRender pj.2).length) =
        lRender pj.2) :=
  scanner_exact_on_decomposition (fun _ => Probe.threw) ⟨true, false⟩ c1Text
    c1Ms c1Ls (by decide) (by decide) (by decide) (by decide) (by decide)
    (by decide)
